import Mathlib

/-!
Verification development for the ptxn TLog server
(src/fdbserver/ptxn/TLogServer.actor.cpp) and the backup mutation-log file
decoder (FileDecoder.actor.cpp).

The development shallowly embeds:
  * the byte-level framing of the disk queue (TLogQueue::push / TLogQueue::readNext),
  * the serialization of TLogQueueEntryRef,
  * the per-generation commit state machine (tLogCommit, commitMessages,
    doQueueCommit, the dispatch loop of serveTLogInterface_PassivelyPull),
  * the backup log file decoder (decode_key, decode_value, decode_block,
    DecodeProgress::getNextBatchImpl).

Machine integers are modelled as Nat with explicit reductions modulo 2^w where
the source relies on fixed width; byte strings are lists of Nat (each byte
intended to be < 256, stated as a hypothesis where a theorem needs it).
-/

/-! ### Little/big endian byte encoding

The source reads and writes little-endian machine words via memcpy /
BinaryWriter, and big-endian words via bigEndian32 / bigEndian64 /
consumeNetworkUInt32.
-/

/-- Little-endian value of a byte list (first byte least significant).
This is what memcpy into a zero-initialized integer computes, also for a
partial (shorter than expected) byte list. -/
def readLE : List Nat → Nat
  | [] => 0
  | b :: bs => b + 256 * readLE bs

/-- The k little-endian bytes of n (n is reduced mod 256^k, as a machine
store of a k-byte integer does). -/
def leBytes : Nat → Nat → List Nat
  | 0, _ => []
  | k + 1, n => n % 256 :: leBytes k (n / 256)

/-- Big-endian value of a byte list (first byte most significant). -/
def readBE (l : List Nat) : Nat := readLE l.reverse

/-- The k big-endian bytes of n. -/
def beBytes (k n : Nat) : List Nat := (leBytes k n).reverse

theorem leBytes_length (k n : Nat) : (leBytes k n).length = k := by
  induction k generalizing n with
  | zero => rfl
  | succ k ih => simp [leBytes, ih]

theorem readLE_leBytes (k n : Nat) : readLE (leBytes k n) = n % 256 ^ k := by
  induction k generalizing n with
  | zero => simp [leBytes, readLE, Nat.mod_one]
  | succ k ih =>
    simp only [leBytes, readLE, ih]
    rw [pow_succ, mul_comm (256 ^ k) 256, Nat.mod_mul]

theorem leBytes_lt (k n : Nat) : ∀ b ∈ leBytes k n, b < 256 := by
  induction k generalizing n with
  | zero => intro b hb; simp [leBytes] at hb
  | succ k ih =>
    intro b hb
    simp only [leBytes, List.mem_cons] at hb
    rcases hb with h | h
    · subst h; exact Nat.mod_lt _ (by norm_num)
    · exact ih _ b h

theorem readLE_leBytes_eq (k n : Nat) (h : n < 256 ^ k) :
    readLE (leBytes k n) = n := by
  rw [readLE_leBytes, Nat.mod_eq_of_lt h]

theorem beBytes_length (k n : Nat) : (beBytes k n).length = k := by
  simp [beBytes, leBytes_length]

theorem readBE_beBytes (k n : Nat) : readBE (beBytes k n) = n % 256 ^ k := by
  simp [readBE, beBytes, readLE_leBytes]

theorem readBE_beBytes_eq (k n : Nat) (h : n < 256 ^ k) :
    readBE (beBytes k n) = n := by
  rw [readBE_beBytes, Nat.mod_eq_of_lt h]

/-- Helper: take of an exact-length left factor of an append. -/
theorem take_len_append (xs ys : List Nat) : (xs ++ ys).take xs.length = xs := by
  induction xs with
  | nil => simp
  | cons a xs ih => simp [List.take, ih]

/-- Helper: drop of an exact-length left factor of an append. -/
theorem drop_len_append (xs ys : List Nat) : (xs ++ ys).drop xs.length = ys := by
  induction xs with
  | nil => simp
  | cons a xs ih => simp [List.drop, ih]

/-- Reading n bytes from a cursor: returns the bytes and the rest, or none if
fewer than n bytes remain (a reader that throws on short reads). -/
def readN (n : Nat) (bs : List Nat) : Option (List Nat × List Nat) :=
  if n ≤ bs.length then some (bs.take n, bs.drop n) else none

theorem readN_append (n : Nat) (xs ys : List Nat) (h : xs.length = n) :
    readN n (xs ++ ys) = some (xs, ys) := by
  subst h
  simp [readN, take_len_append, drop_len_append]

theorem readN_all (n : Nat) (xs : List Nat) (h : xs.length = n) :
    readN n xs = some (xs, []) := by
  subst h
  simp [readN]

/-! ### TLogQueueEntryRef serialization (TLogServer.actor.cpp lines 60-79, 634-646)

TLogQueue::push frames a serialized TLogQueueEntryRef as
u32 payloadSize (little endian, excluding the size field and the valid byte),
then the payload (an 8-byte protocol version written by IncludeVersion,
followed by the fields in the order of TLogQueueEntryRef::serialize:
version, messages, knownCommittedVersion, id, storageTeamId),
then a valid byte 1. UIDs are two u64 words; StringRef is a u32 length
followed by the raw bytes; all words little endian.
-/

/-- In-memory form of TLogQueueEntryRef. UIDs are modelled as two 64-bit
words (first, second). -/
structure TLogQueueEntryM where
  idFirst : Nat
  idSecond : Nat
  teamFirst : Nat
  teamSecond : Nat
  version : Nat
  knownCommittedVersion : Nat
  messages : List Nat
deriving DecidableEq, Repr

/-- Models ProtocolVersion::withTLogQueueEntryRef() written by IncludeVersion.
The exact 64-bit constant is declared outside this repository snapshot; no
theorem below depends on its value, only on encode and decode using the same
constant. -/
def tLogQueueEntryProtocol : Nat := 0x0FDB00B071010000

/-- Payload bytes of a queue entry, as written by TLogQueue::push. -/
def encodeEntry (e : TLogQueueEntryM) : List Nat :=
  leBytes 8 tLogQueueEntryProtocol ++
    (leBytes 8 e.version ++
      (leBytes 4 e.messages.length ++
        (e.messages ++
          (leBytes 8 e.knownCommittedVersion ++
            (leBytes 8 e.idFirst ++
              (leBytes 8 e.idSecond ++
                (leBytes 8 e.teamFirst ++ leBytes 8 e.teamSecond)))))))

/-- Payload parsing as done by ArenaReader with IncludeVersion in
TLogQueue::readNext (line 164-165): the sequential reads are the 8-byte
protocol word at offset 0, version at 8, the u32 message length at 16, the
message bytes at 20, then knownCommittedVersion, id (two words) and
storageTeamId (two words). Returns none when the protocol word is not the
accepted one or the bytes run short of the 60 + messageLength the reads
consume (trailing bytes are ignored, as ArenaReader ignores them). -/
def decodeEntry (bs : List Nat) : Option TLogQueueEntryM :=
  if readLE (bs.take 8) = tLogQueueEntryProtocol ∧
      60 + readLE ((bs.drop 16).take 4) ≤ bs.length then
    some { idFirst := readLE ((bs.drop (28 + readLE ((bs.drop 16).take 4))).take 8),
           idSecond := readLE ((bs.drop (36 + readLE ((bs.drop 16).take 4))).take 8),
           teamFirst := readLE ((bs.drop (44 + readLE ((bs.drop 16).take 4))).take 8),
           teamSecond := readLE ((bs.drop (52 + readLE ((bs.drop 16).take 4))).take 8),
           version := readLE ((bs.drop 8).take 8),
           knownCommittedVersion := readLE ((bs.drop (20 + readLE ((bs.drop 16).take 4))).take 8),
           messages := (bs.drop 20).take (readLE ((bs.drop 16).take 4)) }
  else none

/-- Well-formedness of an entry for the byte-level round trip: every numeric
field fits its machine width and the messages are small enough for the
readNext payload-size assertion (payloadSize < 100 << 20). -/
def wfEntry (e : TLogQueueEntryM) : Prop :=
  e.version < 2 ^ 64 ∧ e.knownCommittedVersion < 2 ^ 64 ∧
    e.idFirst < 2 ^ 64 ∧ e.idSecond < 2 ^ 64 ∧
    e.teamFirst < 2 ^ 64 ∧ e.teamSecond < 2 ^ 64 ∧
    e.messages.length + 60 < 100 * 2 ^ 20

instance (e : TLogQueueEntryM) : Decidable (wfEntry e) := by
  unfold wfEntry; infer_instance

theorem encodeEntry_length (e : TLogQueueEntryM) :
    (encodeEntry e).length = 60 + e.messages.length := by
  simp [encodeEntry, leBytes_length]
  omega

theorem take_leBytes_append (k n : Nat) (ys : List Nat) :
    (leBytes k n ++ ys).take k = leBytes k n := by
  have h := take_len_append (leBytes k n) ys
  rwa [leBytes_length] at h

theorem drop_leBytes_append (k n : Nat) (ys : List Nat) :
    (leBytes k n ++ ys).drop k = ys := by
  have h := drop_len_append (leBytes k n) ys
  rwa [leBytes_length] at h

theorem drop_split (l : List Nat) (m n : Nat) : l.drop (m + n) = (l.drop m).drop n := by
  rw [List.drop_drop, Nat.add_comm]

theorem decodeEntry_encodeEntry (e : TLogQueueEntryM) (h : wfEntry e) :
    decodeEntry (encodeEntry e) = some e := by
  obtain ⟨hv, hk, hi1, hi2, ht1, ht2, hm⟩ := h
  have hprot : readLE (leBytes 8 tLogQueueEntryProtocol) = tLogQueueEntryProtocol :=
    readLE_leBytes_eq _ _ (by norm_num [tLogQueueEntryProtocol])
  have hlen : readLE (leBytes 4 e.messages.length) = e.messages.length :=
    readLE_leBytes_eq _ _ (by norm_num; omega)
  have t0 : (encodeEntry e).take 8 = leBytes 8 tLogQueueEntryProtocol := by
    rw [encodeEntry]; exact take_leBytes_append _ _ _
  have d8 : (encodeEntry e).drop 8 =
      leBytes 8 e.version ++
        (leBytes 4 e.messages.length ++
          (e.messages ++
            (leBytes 8 e.knownCommittedVersion ++
              (leBytes 8 e.idFirst ++
                (leBytes 8 e.idSecond ++
                  (leBytes 8 e.teamFirst ++ leBytes 8 e.teamSecond)))))) := by
    rw [encodeEntry]; exact drop_leBytes_append _ _ _
  have d16 : (encodeEntry e).drop 16 =
      leBytes 4 e.messages.length ++
        (e.messages ++
          (leBytes 8 e.knownCommittedVersion ++
            (leBytes 8 e.idFirst ++
              (leBytes 8 e.idSecond ++
                (leBytes 8 e.teamFirst ++ leBytes 8 e.teamSecond))))) := by
    rw [show (16 : Nat) = 8 + 8 from rfl, drop_split, d8]
    exact drop_leBytes_append _ _ _
  have d20 : (encodeEntry e).drop 20 =
      e.messages ++
        (leBytes 8 e.knownCommittedVersion ++
          (leBytes 8 e.idFirst ++
            (leBytes 8 e.idSecond ++
              (leBytes 8 e.teamFirst ++ leBytes 8 e.teamSecond)))) := by
    rw [show (20 : Nat) = 16 + 4 from rfl, drop_split, d16]
    exact drop_leBytes_append _ _ _
  have d20L : (encodeEntry e).drop (20 + e.messages.length) =
      leBytes 8 e.knownCommittedVersion ++
        (leBytes 8 e.idFirst ++
          (leBytes 8 e.idSecond ++
            (leBytes 8 e.teamFirst ++ leBytes 8 e.teamSecond))) := by
    rw [drop_split, d20]; exact drop_len_append _ _
  have d28L : (encodeEntry e).drop (28 + e.messages.length) =
      leBytes 8 e.idFirst ++
        (leBytes 8 e.idSecond ++ (leBytes 8 e.teamFirst ++ leBytes 8 e.teamSecond)) := by
    rw [show 28 + e.messages.length = 20 + e.messages.length + 8 by omega,
      drop_split, d20L]
    exact drop_leBytes_append _ _ _
  have d36L : (encodeEntry e).drop (36 + e.messages.length) =
      leBytes 8 e.idSecond ++ (leBytes 8 e.teamFirst ++ leBytes 8 e.teamSecond) := by
    rw [show 36 + e.messages.length = 28 + e.messages.length + 8 by omega,
      drop_split, d28L]
    exact drop_leBytes_append _ _ _
  have d44L : (encodeEntry e).drop (44 + e.messages.length) =
      leBytes 8 e.teamFirst ++ leBytes 8 e.teamSecond := by
    rw [show 44 + e.messages.length = 36 + e.messages.length + 8 by omega,
      drop_split, d36L]
    exact drop_leBytes_append _ _ _
  have d52L : (encodeEntry e).drop (52 + e.messages.length) = leBytes 8 e.teamSecond := by
    rw [show 52 + e.messages.length = 44 + e.messages.length + 8 by omega,
      drop_split, d44L]
    exact drop_leBytes_append _ _ _
  rw [decodeEntry, d16, take_leBytes_append, hlen, t0, hprot, d8, take_leBytes_append,
    d20, take_len_append, d20L, take_leBytes_append, d28L, take_leBytes_append,
    d36L, take_leBytes_append, d44L, take_leBytes_append, d52L, encodeEntry_length]
  rw [List.take_of_length_le (by rw [leBytes_length])]
  rw [readLE_leBytes_eq _ _ hv, readLE_leBytes_eq _ _ hk,
    readLE_leBytes_eq _ _ hi1, readLE_leBytes_eq _ _ hi2,
    readLE_leBytes_eq _ _ ht1, readLE_leBytes_eq _ _ ht2]
  rw [if_pos ⟨rfl, le_refl _⟩]

/-! ### Disk-queue framing and recovery replay (TLogQueue::readNext, lines 133-177)

readNext loops: read the 4-byte size field; a short read of n bytes with
0 < n < 4 sets zeroFillSize = (4 - n) + payloadSize + 1 where payloadSize is
the partial little-endian value, and breaks; an empty read breaks with no
zero fill. Otherwise read payloadSize + 1 bytes; a short read sets
zeroFillSize to the missing byte count and breaks. If the trailing valid
byte is 0 the frame is skipped and the loop continues; if it is 1 the
payload is yielded as a record; any other value fails
ASSERT(e[payloadSize] == 1). ASSERT(payloadSize < (100 << 20)) guards the
declared size. After a break, zeroFillSize zero bytes are pushed and
end_of_stream is thrown.
-/

/-- How the replay of the queue tail ends: end_of_stream after pushing the
given number of zero-fill bytes, or an ASSERT failure. -/
inductive ReplayTail where
  | eos (zeroFill : Nat)
  | assertFail
deriving DecidableEq, Repr

/-- One full frame as laid out by TLogQueue::push: size field, payload,
valid byte 1. -/
def frameOf (payload : List Nat) : List Nat :=
  leBytes 4 payload.length ++ payload ++ [1]

/-- Fuel-indexed replay loop of TLogQueue::readNext; each iteration consumes
at least 5 bytes, so fuel = length + 1 always suffices (see replayFrames). -/
def replayFramesGo : Nat → List Nat → List (List Nat) × ReplayTail
  | 0, _ => ([], ReplayTail.assertFail)
  | fuel + 1, bytes =>
    if bytes.length < 4 then
      if bytes.length = 0 then ([], ReplayTail.eos 0)
      else ([], ReplayTail.eos (4 - bytes.length + readLE bytes + 1))
    else if 100 * 2 ^ 20 ≤ readLE (bytes.take 4) then ([], ReplayTail.assertFail)
    else if (bytes.drop 4).length < readLE (bytes.take 4) + 1 then
      ([], ReplayTail.eos (readLE (bytes.take 4) + 1 - (bytes.drop 4).length))
    else if ((bytes.drop 4).take (readLE (bytes.take 4) + 1)).getD (readLE (bytes.take 4)) 0 = 0 then
      replayFramesGo fuel ((bytes.drop 4).drop (readLE (bytes.take 4) + 1))
    else if ((bytes.drop 4).take (readLE (bytes.take 4) + 1)).getD (readLE (bytes.take 4)) 0 = 1 then
      (((bytes.drop 4).take (readLE (bytes.take 4) + 1)).take (readLE (bytes.take 4)) ::
          (replayFramesGo fuel ((bytes.drop 4).drop (readLE (bytes.take 4) + 1))).1,
        (replayFramesGo fuel ((bytes.drop 4).drop (readLE (bytes.take 4) + 1))).2)
    else ([], ReplayTail.assertFail)

/-- Replay of the recovered byte stream: the records yielded by repeated
readNext calls, and how the stream ends. -/
def replayFrames (bytes : List Nat) : List (List Nat) × ReplayTail :=
  replayFramesGo (bytes.length + 1) bytes

theorem replayFramesGo_succ (fuel : Nat) (bytes : List Nat) :
    replayFramesGo (fuel + 1) bytes =
      if bytes.length < 4 then
        if bytes.length = 0 then ([], ReplayTail.eos 0)
        else ([], ReplayTail.eos (4 - bytes.length + readLE bytes + 1))
      else if 100 * 2 ^ 20 ≤ readLE (bytes.take 4) then ([], ReplayTail.assertFail)
      else if (bytes.drop 4).length < readLE (bytes.take 4) + 1 then
        ([], ReplayTail.eos (readLE (bytes.take 4) + 1 - (bytes.drop 4).length))
      else if ((bytes.drop 4).take (readLE (bytes.take 4) + 1)).getD (readLE (bytes.take 4)) 0 = 0 then
        replayFramesGo fuel ((bytes.drop 4).drop (readLE (bytes.take 4) + 1))
      else if ((bytes.drop 4).take (readLE (bytes.take 4) + 1)).getD (readLE (bytes.take 4)) 0 = 1 then
        (((bytes.drop 4).take (readLE (bytes.take 4) + 1)).take (readLE (bytes.take 4)) ::
            (replayFramesGo fuel ((bytes.drop 4).drop (readLE (bytes.take 4) + 1))).1,
          (replayFramesGo fuel ((bytes.drop 4).drop (readLE (bytes.take 4) + 1))).2)
      else ([], ReplayTail.assertFail) := rfl

theorem replayFramesGo_congrAux :
    ∀ N bytes f g, bytes.length < N → bytes.length < f → bytes.length < g →
      replayFramesGo f bytes = replayFramesGo g bytes := by
  intro N
  induction N with
  | zero => intro bytes f g hN; omega
  | succ N ih =>
    intro bytes f g hN hf hg
    cases f with
    | zero => omega
    | succ f =>
      cases g with
      | zero => omega
      | succ g =>
        rw [replayFramesGo_succ f, replayFramesGo_succ g]
        split_ifs with h4 h0 hassert hshort hv0 hv1
        · rfl
        · rfl
        · rfl
        · rfl
        · apply ih <;> (simp only [List.length_drop] at hshort ⊢; omega)
        · rw [ih ((bytes.drop 4).drop (readLE (bytes.take 4) + 1)) f g
              (by simp only [List.length_drop] at hshort ⊢; omega)
              (by simp only [List.length_drop] at hshort ⊢; omega)
              (by simp only [List.length_drop] at hshort ⊢; omega)]
        · rfl

theorem replayFramesGo_congr (f g : Nat) (bytes : List Nat)
    (hf : bytes.length < f) (hg : bytes.length < g) :
    replayFramesGo f bytes = replayFramesGo g bytes :=
  replayFramesGo_congrAux (bytes.length + 1) bytes f g (by omega) hf hg

theorem getD_len_append (xs ys : List Nat) (y d : Nat) :
    (xs ++ y :: ys).getD xs.length d = y := by
  induction xs with
  | nil => rfl
  | cons a xs ih => simpa using ih

/-- A frame as the zero-fill recovery leaves it: the declared size, the
payload, and a valid byte 0 (readNext skips such frames, line 161-170:
when e[payloadSize] is 0 the loop continues without yielding). -/
def skipFrameOf (payload : List Nat) : List Nat :=
  leBytes 4 payload.length ++ payload ++ [0]

theorem replayFrames_frame (p rest : List Nat) (hp : p.length < 100 * 2 ^ 20) :
    replayFrames (frameOf p ++ rest) =
      (p :: (replayFrames rest).1, (replayFrames rest).2) := by
  have hplen : readLE (leBytes 4 p.length) = p.length :=
    readLE_leBytes_eq _ _ (by norm_num; omega)
  have hassoc : frameOf p ++ rest = leBytes 4 p.length ++ ((p ++ [1]) ++ rest) := by
    simp [frameOf, List.append_assoc]
  have hlen1 : (p ++ [1]).length = p.length + 1 := by simp
  have htake4 : (frameOf p ++ rest).take 4 = leBytes 4 p.length := by
    rw [hassoc]; exact take_leBytes_append _ _ _
  have hdrop4 : (frameOf p ++ rest).drop 4 = (p ++ [1]) ++ rest := by
    rw [hassoc]; exact drop_leBytes_append _ _ _
  have hBlen : (frameOf p ++ rest).length = p.length + 5 + rest.length := by
    simp [frameOf, leBytes_length]; omega
  have htakeP1 : ((p ++ [1]) ++ rest).take (p.length + 1) = p ++ [1] := by
    have h := take_len_append (p ++ [1]) rest; rwa [hlen1] at h
  have hdropP1 : ((p ++ [1]) ++ rest).drop (p.length + 1) = rest := by
    have h := drop_len_append (p ++ [1]) rest; rwa [hlen1] at h
  have hgetD : (p ++ [1]).getD p.length 0 = 1 := getD_len_append p [] 1 0
  have happlen : ((p ++ [1]) ++ rest).length = p.length + 1 + rest.length := by
    rw [List.length_append, hlen1]
  rw [replayFrames, replayFramesGo_succ, htake4, hplen, hdrop4, htakeP1,
    hdropP1, hgetD, happlen, hBlen]
  rw [if_neg (by omega), if_neg (by omega), if_neg (by omega), if_neg (by norm_num), if_pos rfl]
  rw [take_len_append p [1]]
  rw [replayFramesGo_congr (p.length + 5 + rest.length) (rest.length + 1) rest
    (by omega) (by omega)]
  rfl

theorem replayFrames_skipFrame (p rest : List Nat) (hp : p.length < 100 * 2 ^ 20) :
    replayFrames (skipFrameOf p ++ rest) = replayFrames rest := by
  have hplen : readLE (leBytes 4 p.length) = p.length :=
    readLE_leBytes_eq _ _ (by norm_num; omega)
  have hassoc : skipFrameOf p ++ rest = leBytes 4 p.length ++ ((p ++ [0]) ++ rest) := by
    simp [skipFrameOf, List.append_assoc]
  have hlen1 : (p ++ [0]).length = p.length + 1 := by simp
  have htake4 : (skipFrameOf p ++ rest).take 4 = leBytes 4 p.length := by
    rw [hassoc]; exact take_leBytes_append _ _ _
  have hdrop4 : (skipFrameOf p ++ rest).drop 4 = (p ++ [0]) ++ rest := by
    rw [hassoc]; exact drop_leBytes_append _ _ _
  have hBlen : (skipFrameOf p ++ rest).length = p.length + 5 + rest.length := by
    simp [skipFrameOf, leBytes_length]; omega
  have htakeP1 : ((p ++ [0]) ++ rest).take (p.length + 1) = p ++ [0] := by
    have h := take_len_append (p ++ [0]) rest; rwa [hlen1] at h
  have hdropP1 : ((p ++ [0]) ++ rest).drop (p.length + 1) = rest := by
    have h := drop_len_append (p ++ [0]) rest; rwa [hlen1] at h
  have hgetD : (p ++ [0]).getD p.length 0 = 0 := getD_len_append p [] 0 0
  have happlen : ((p ++ [0]) ++ rest).length = p.length + 1 + rest.length := by
    rw [List.length_append, hlen1]
  rw [replayFrames, replayFramesGo_succ, htake4, hplen, hdrop4, htakeP1,
    hdropP1, hgetD, happlen, hBlen]
  rw [if_neg (by omega), if_neg (by omega), if_neg (by omega), if_pos rfl]
  exact replayFramesGo_congr (p.length + 5 + rest.length) (rest.length + 1) rest
    (by omega) (by omega)

theorem leBytes_readLE (l : List Nat) (hb : ∀ b ∈ l, b < 256) :
    leBytes l.length (readLE l) = l := by
  induction l with
  | nil => rfl
  | cons a l ih =>
    have ha : a < 256 := hb a (List.mem_cons_self _ _)
    simp only [List.length_cons, leBytes, readLE]
    congr 1
    · rw [Nat.add_mul_mod_self_left, Nat.mod_eq_of_lt ha]
    · rw [Nat.add_mul_div_left _ _ (by norm_num : (0 : Nat) < 256),
        Nat.div_eq_of_lt ha, Nat.zero_add]
      exact ih fun b hbm => hb b (List.mem_cons_of_mem _ hbm)

theorem eq_take_append_getD (l : List Nat) (n d : Nat) (h : l.length = n + 1) :
    l = l.take n ++ [l.getD n d] := by
  have hn : n < l.length := by omega
  rw [List.getD_eq_getElem l d hn]
  conv_lhs => rw [← List.take_append_drop n l]
  congr 1
  rw [List.drop_eq_getElem_cons hn]
  congr 1
  rw [List.drop_eq_nil_of_le (by omega)]

/-- Records yielded by the readNext replay always come from an intact frame
present in the byte stream: a partially written record is never yielded. -/
theorem replayFramesGo_records_intact :
    ∀ N f bytes, bytes.length < N → bytes.length < f → (∀ b ∈ bytes, b < 256) →
      ∀ r ∈ (replayFramesGo f bytes).1, ∃ pre post, bytes = pre ++ (frameOf r ++ post) := by
  intro N
  induction N with
  | zero => intro f bytes h; omega
  | succ N ih =>
    intro f bytes hN hf hb
    cases f with
    | zero => omega
    | succ f =>
      rw [replayFramesGo_succ]
      split_ifs with h4 h0 hassert hshort hv0 hv1
      · simp
      · simp
      · simp
      · simp
      · -- a frame with valid byte 0 is skipped; records come from the tail
        intro r hr
        obtain ⟨pre, post, hdec⟩ := ih f ((bytes.drop 4).drop (readLE (bytes.take 4) + 1))
          (by simp only [List.length_drop] at hshort ⊢; omega)
          (by simp only [List.length_drop] at hshort ⊢; omega)
          (fun b hbm => hb b (List.mem_of_mem_drop (List.mem_of_mem_drop hbm)))
          r hr
        refine ⟨bytes.take 4 ++ ((bytes.drop 4).take (readLE (bytes.take 4) + 1) ++ pre),
          post, ?_⟩
        have hsplit : bytes = bytes.take 4 ++
            ((bytes.drop 4).take (readLE (bytes.take 4) + 1) ++
              (bytes.drop 4).drop (readLE (bytes.take 4) + 1)) := by
          rw [List.take_append_drop, List.take_append_drop]
        conv_lhs => rw [hsplit, hdec]
        simp [List.append_assoc]
      · -- a yielded record: the head record is itself a complete frame
        intro r hr
        simp only [List.mem_cons] at hr
        rcases hr with hr | hr
        · subst hr
          refine ⟨[], (bytes.drop 4).drop (readLE (bytes.take 4) + 1), ?_⟩
          have htk4len : (bytes.take 4).length = 4 := by
            rw [List.length_take]; omega
          have helen : ((bytes.drop 4).take (readLE (bytes.take 4) + 1)).length =
              readLE (bytes.take 4) + 1 := by
            rw [List.length_take]
            simp only [List.length_drop] at hshort ⊢
            omega
          have hrlen : (((bytes.drop 4).take (readLE (bytes.take 4) + 1)).take
              (readLE (bytes.take 4))).length = readLE (bytes.take 4) := by
            rw [List.length_take, helen]; omega
          have htk4 : leBytes 4 (readLE (bytes.take 4)) = bytes.take 4 := by
            have h := leBytes_readLE (bytes.take 4)
              (fun b hbm => hb b (List.mem_of_mem_take hbm))
            rwa [htk4len] at h
          have he : (bytes.drop 4).take (readLE (bytes.take 4) + 1) =
              ((bytes.drop 4).take (readLE (bytes.take 4) + 1)).take
                (readLE (bytes.take 4)) ++ [1] := by
            have h := eq_take_append_getD ((bytes.drop 4).take (readLE (bytes.take 4) + 1))
              (readLE (bytes.take 4)) 0 helen
            rwa [hv1] at h
          have hsplit : bytes = bytes.take 4 ++
              ((bytes.drop 4).take (readLE (bytes.take 4) + 1) ++
                (bytes.drop 4).drop (readLE (bytes.take 4) + 1)) := by
            rw [List.take_append_drop, List.take_append_drop]
          rw [frameOf, hrlen, htk4]
          conv_lhs => rw [hsplit]
          rw [List.nil_append]
          conv_lhs => rw [he]
          simp [List.append_assoc]
        · obtain ⟨pre, post, hdec⟩ := ih f ((bytes.drop 4).drop (readLE (bytes.take 4) + 1))
            (by simp only [List.length_drop] at hshort ⊢; omega)
            (by simp only [List.length_drop] at hshort ⊢; omega)
            (fun b hbm => hb b (List.mem_of_mem_drop (List.mem_of_mem_drop hbm)))
            r hr
          refine ⟨bytes.take 4 ++ ((bytes.drop 4).take (readLE (bytes.take 4) + 1) ++ pre),
            post, ?_⟩
          have hsplit : bytes = bytes.take 4 ++
              ((bytes.drop 4).take (readLE (bytes.take 4) + 1) ++
                (bytes.drop 4).drop (readLE (bytes.take 4) + 1)) := by
            rw [List.take_append_drop, List.take_append_drop]
          conv_lhs => rw [hsplit, hdec]
          simp [List.append_assoc]
      · simp

/-! ### Per-generation commit state (TLogServer.actor.cpp)

A single TLog group with its single active generation is modelled as one
record. Fields up to minKnownCommittedVersion mirror LogGenerationData
(lines 506-517); versionMessages mirrors the per-team StorageTeamData
deques (line 475); messageBlocks/blockRemaining mirror the shared message
blocks of commitMessages (lines 695-712, blockRemaining tracks the tail
block capacity left after VectorRef::pop_front); bytesInput,
diskQueueCommitBytes and largeDiskQueueCommitBytes mirror the TLogGroupData
counters (lines 293-305); diskQueue / diskQueueDurable / persistentData
model the bytes of the group's disk queue (pushed, durable prefix) and the
key/value store writes; pendingQueueCommit holds the (version,
knownCommittedVersion) pairs captured by doQueueCommit runs that have
started but not yet finished (lines 764-766).
-/

/-- Server knob TLOG_MESSAGE_BLOCK_BYTES (value not load-bearing here). -/
def TLOG_MESSAGE_BLOCK_BYTES : Nat := 10000000

/-- Server knob MAX_QUEUE_COMMIT_BYTES (value not load-bearing here). -/
def MAX_QUEUE_COMMIT_BYTES : Nat := 100000000

/-- Server knob VERSION_MESSAGES_ENTRY_BYTES_WITH_OVERHEAD (value not
load-bearing here). -/
def VERSION_MESSAGES_OVERHEAD : Nat := 96

/-- Models the reserved txsTeam storage team id (an opaque UID declared
outside this snapshot); only its distinctness from ordinary team ids
matters, and no theorem below depends on it. -/
def txsTeamId : Nat := 340282366920938463463374607431768211455

/-- Models int64_t(blockSize) * SERVER_KNOBS->TLOG_MESSAGE_BLOCK_OVERHEAD_FACTOR
(line 709, 750). The knob is a double declared outside this snapshot; the
exact scaling is not load-bearing for any theorem below, only whether the
counter changes. -/
def blockOverhead (n : Nat) : Nat := n * 11 / 10

/-- LengthPrefixedStringRef::expectedSize(): the length word stored at the
head of the message bytes (line 730, 735). -/
def expectedSizeLPS (msgs : List Nat) : Nat := readLE (msgs.take 4)

/-- State of one generation (plus the group-level counters it uses). -/
structure GenState where
  stopped : Bool := false
  version : Nat := 0
  queueCommittedVersion : Nat := 0
  queueCommittingVersion : Nat := 0
  knownCommittedVersion : Nat := 0
  durableKnownCommittedVersion : Nat := 0
  minKnownCommittedVersion : Nat := 0
  versionMessages : List (Nat × List (Nat × List Nat)) := []
  messageBlocks : List (Nat × List Nat) := []
  blockRemaining : Nat := 0
  versionSizes : List (Nat × Nat × Nat) := []
  bytesInput : Nat := 0
  diskQueueCommitBytes : Nat := 0
  largeDiskQueueCommitBytes : Bool := false
  diskQueue : List Nat := []
  diskQueueDurable : Nat := 0
  persistentData : List (List Nat × List Nat) := []
  pendingQueueCommit : List (Nat × Nat) := []
deriving DecidableEq, Repr

/-- The freshly recruited generation: version = 0, knownCommittedVersion = 0
(LogGenerationData constructor, lines 558-565), empty team index, empty
disk queue. -/
def initGenState : GenState := {}

/-- Lookup of a team's versionMessages deque (storageTeamData map). -/
def teamLookup : List (Nat × List (Nat × List Nat)) → Nat → Option (List (Nat × List Nat))
  | [], _ => none
  | (t, d) :: rest, team => if t = team then some d else teamLookup rest team

/-- Push (version, messages) at the back of a team's deque, creating the
team entry if missing (getStorageTeamData / createStorageTeamData plus
versionMessages.emplace_back, lines 723-729). -/
def teamAppend : List (Nat × List (Nat × List Nat)) → Nat → Nat × List Nat →
    List (Nat × List (Nat × List Nat))
  | [], team, e => [(team, [e])]
  | (t, d) :: rest, team, e =>
    if t = team then (t, d ++ [e]) :: rest else (t, d) :: teamAppend rest team e

/-- version_sizes[version] = sizes (line 753). -/
def sizesSet : List (Nat × Nat × Nat) → Nat → Nat × Nat → List (Nat × Nat × Nat)
  | [], v, p => [(v, p)]
  | (v0, p0) :: rest, v, p =>
    if v0 = v then (v, p) :: rest else (v0, p0) :: sizesSet rest v p

/-- commitMessages (lines 679-759). Returns immediately when the messages
are empty (line 692-693). Otherwise: the tail message block is reused with
its whole content popped; when the message does not fit the remaining block
capacity, the (now empty) old block is sealed as a block entry for this
version and a fresh block of capacity max(TLOG_MESSAGE_BLOCK_BYTES, size)
is allocated (lines 697-712); the message bytes are appended and indexed in
the team's deque (lines 721-729); version_sizes and the byte counters are
updated (lines 734-756). -/
def commitMessages (s : GenState) (version : Nat) (messages : List Nat)
    (storageTeamId : Nat) : GenState :=
  if messages.length = 0 then s
  else
    let fresh := s.messageBlocks.isEmpty
    let remaining := if fresh then max TLOG_MESSAGE_BLOCK_BYTES messages.length
      else s.blockRemaining
    let overflow := decide (remaining < messages.length)
    let blocks1 := if overflow then s.messageBlocks ++ [(version, [])] else s.messageBlocks
    let remaining1 := if overflow then max TLOG_MESSAGE_BLOCK_BYTES messages.length
      else remaining
    let expected := expectedSizeLPS messages
    { s with
      messageBlocks := blocks1 ++ [(version, messages)],
      blockRemaining := remaining1 - messages.length,
      versionMessages := teamAppend s.versionMessages storageTeamId (version, messages),
      versionSizes := sizesSet s.versionSizes version
        (if storageTeamId = txsTeamId then (0, expected) else (expected, 0)),
      bytesInput := s.bytesInput + blockOverhead messages.length + VERSION_MESSAGES_OVERHEAD }

/-- Commit requests (TLogCommitRequest). -/
structure CommitRequest where
  storageTeamID : Nat
  messages : List Nat
  prevVersion : Nat
  version : Nat
  knownCommittedVersion : Nat
  minKnownCommittedVersion : Nat
deriving DecidableEq, Repr

/-- The error kinds a commit reply can carry. -/
inductive TLogError where
  | tlogStopped
  | tlogGroupNotFound
deriving DecidableEq, Repr

/-- tLogCommit from entry up to and including logData->version.set
(lines 866-932), executed atomically (the source has no suspension point
between the stopped check at line 894 and version.set at line 928; the
backpressure loop, line 886-892, changes no modelled state). Models:
the minKnownCommittedVersion update (line 877); the stopped check after the
backpressure loop (line 894-897: reply tlog_stopped); duplicate detection
isNotDuplicate = (version.get() == prevVersion) (line 902); for
non-duplicates commitMessages, the knownCommittedVersion max-update, the
building of the queue entry qe whose expectedSize() is the messages length,
the diskQueueCommitBytes / largeDiskQueueCommitBytes updates and
version.set(req.version) (lines 903-928). The push of qe to the persistent
queue is commented out in the source (lines 919-920), so diskQueue is
untouched. Returns the new state and (some reply) when the handler replied
and returned, or none when it proceeds to wait for the queue commit. -/
def tLogCommitStart (s : GenState) (req : CommitRequest) :
    GenState × Option (Except TLogError Nat) :=
  let s0 := { s with
    minKnownCommittedVersion := max s.minKnownCommittedVersion req.minKnownCommittedVersion }
  if s0.stopped then (s0, some (Except.error TLogError.tlogStopped))
  else if s0.version = req.prevVersion then
    let s1 := commitMessages s0 req.version req.messages req.storageTeamID
    let s2 := { s1 with
      knownCommittedVersion := max s1.knownCommittedVersion req.knownCommittedVersion }
    let s3 := { s2 with
      diskQueueCommitBytes := s2.diskQueueCommitBytes + req.messages.length,
      largeDiskQueueCommitBytes :=
        if MAX_QUEUE_COMMIT_BYTES < s2.diskQueueCommitBytes + req.messages.length
        then true else s2.largeDiskQueueCommitBytes }
    ({ s3 with version := req.version }, none)
  else (s0, none)

/-- The reply phase of tLogCommit (lines 933-952): after waiting for
queueCommittedVersion.whenAtLeast(req.version) OR the stopCommit trigger,
reply tlog_stopped if the stop trigger fired, else reply the current
durableKnownCommittedVersion. s is the state at reply time. -/
def tLogCommitFinish (s : GenState) (stopFired : Bool) : Except TLogError Nat :=
  if stopFired then Except.error TLogError.tlogStopped
  else Except.ok s.durableKnownCommittedVersion

/-- The commit dispatch of serveTLogInterface_PassivelyPull (lines
1077-1090): an unknown storage team is answered tlog_group_not_found; a
stopped generation is answered tlog_stopped; otherwise tLogCommit is
spawned (modelled by returning none). -/
def serveCommitDispatch (hasTeam : Bool) (s : GenState) : Option TLogError :=
  if hasTeam = false then some TLogError.tlogGroupNotFound
  else if s.stopped then some TLogError.tlogStopped
  else none

/-- The start of doQueueCommit (lines 761-778): captures ver = version.get()
and knownCommittedVersion, sets queueCommittingVersion, and — because the
disk queue commit self->persistentQueue->commit() is commented out (lines
771-773) — waits on an already-ready future instead; diskQueueCommitBytes
is reset and largeDiskQueueCommitBytes cleared. The captured pair is queued
until the completion runs. -/
def doQueueCommitBegin (s : GenState) : GenState :=
  { s with
    queueCommittingVersion := s.version,
    diskQueueCommitBytes := 0,
    largeDiskQueueCommitBytes := false,
    pendingQueueCommit := s.pendingQueueCommit ++ [(s.version, s.knownCommittedVersion)] }

/-- The completion of doQueueCommit (lines 789-796): with (ver,
knownCommittedVersion) the oldest captured pair, sets
durableKnownCommittedVersion to the captured knownCommittedVersion and
queueCommittedVersion to the captured ver. Does nothing when no queue
commit is in flight. -/
def doQueueCommitEnd (s : GenState) : GenState :=
  match s.pendingQueueCommit with
  | [] => s
  | (v, k) :: rest =>
    { s with
      durableKnownCommittedVersion := k,
      queueCommittedVersion := v,
      pendingQueueCommit := rest }

/-- A doQueueCommit that runs to completion with no other doQueueCommit in
flight. -/
def doQueueCommitRun (s : GenState) : GenState := doQueueCommitEnd (doQueueCommitBegin s)

/-- TLogQueue::push of a queue entry (lines 634-646): appends the frame to
the disk queue. The commit path of this source never calls it (line 920 is
commented out); it is the operation the framed-queue round trip uses. -/
def tLogQueuePush (s : GenState) (qe : TLogQueueEntryM) : GenState :=
  { s with diskQueue := s.diskQueue ++ frameOf (encodeEntry qe) }

/-- TLogQueue::commit (line 110): makes the pushed prefix durable. -/
def tLogQueueCommit (s : GenState) : GenState :=
  { s with diskQueueDurable := s.diskQueue.length }

/-- The bytes the disk queue replays after a crash: the durable prefix. -/
def recoveredBytes (s : GenState) : List Nat := s.diskQueue.take s.diskQueueDurable

/-- Push a list of entries in order. -/
def pushAll (s : GenState) (X : List TLogQueueEntryM) : GenState :=
  X.foldl tLogQueuePush s

/-- One step of the generation through the commit handler and the
queue-commit loop. Commit requests are constrained as the system produces
them (spec section 3: prevVersion is the previously committed version,
versions strictly increase, and the certified knownCommittedVersion never
exceeds the commit version); commitQueue only starts a doQueueCommit when
version.get() is beyond both queueCommittingVersion and
queueCommittedVersion (lines 840-857); stopAllTLogs may stop the
generation at any time. -/
inductive GenStep : GenState → GenState → Prop
  | commit (s : GenState) (req : CommitRequest)
      (hprev : req.prevVersion < req.version)
      (hkcv : req.knownCommittedVersion ≤ req.version) :
      GenStep s (tLogCommitStart s req).1
  | queueCommitBegin (s : GenState)
      (hguard : max s.queueCommittingVersion s.queueCommittedVersion < s.version) :
      GenStep s (doQueueCommitBegin s)
  | queueCommitEnd (s : GenState) : GenStep s (doQueueCommitEnd s)
  | stop (s : GenState) : GenStep s { s with stopped := true }

/-- States of the generation reachable from recruitment. -/
def ReachableGen (s : GenState) : Prop :=
  Relation.ReflTransGen GenStep initGenState s

theorem commitMessages_stopped (s : GenState) (v : Nat) (m : List Nat) (t : Nat) :
    (commitMessages s v m t).stopped = s.stopped := by
  unfold commitMessages; split <;> rfl

theorem commitMessages_version (s : GenState) (v : Nat) (m : List Nat) (t : Nat) :
    (commitMessages s v m t).version = s.version := by
  unfold commitMessages; split <;> rfl

theorem commitMessages_qcv (s : GenState) (v : Nat) (m : List Nat) (t : Nat) :
    (commitMessages s v m t).queueCommittedVersion = s.queueCommittedVersion := by
  unfold commitMessages; split <;> rfl

theorem commitMessages_qcving (s : GenState) (v : Nat) (m : List Nat) (t : Nat) :
    (commitMessages s v m t).queueCommittingVersion = s.queueCommittingVersion := by
  unfold commitMessages; split <;> rfl

theorem commitMessages_kcv (s : GenState) (v : Nat) (m : List Nat) (t : Nat) :
    (commitMessages s v m t).knownCommittedVersion = s.knownCommittedVersion := by
  unfold commitMessages; split <;> rfl

theorem commitMessages_dkcv (s : GenState) (v : Nat) (m : List Nat) (t : Nat) :
    (commitMessages s v m t).durableKnownCommittedVersion =
      s.durableKnownCommittedVersion := by
  unfold commitMessages; split <;> rfl

theorem commitMessages_minkcv (s : GenState) (v : Nat) (m : List Nat) (t : Nat) :
    (commitMessages s v m t).minKnownCommittedVersion = s.minKnownCommittedVersion := by
  unfold commitMessages; split <;> rfl

theorem commitMessages_pending (s : GenState) (v : Nat) (m : List Nat) (t : Nat) :
    (commitMessages s v m t).pendingQueueCommit = s.pendingQueueCommit := by
  unfold commitMessages; split <;> rfl

theorem commitMessages_diskQueue (s : GenState) (v : Nat) (m : List Nat) (t : Nat) :
    (commitMessages s v m t).diskQueue = s.diskQueue := by
  unfold commitMessages; split <;> rfl

theorem commitMessages_diskQueueDurable (s : GenState) (v : Nat) (m : List Nat) (t : Nat) :
    (commitMessages s v m t).diskQueueDurable = s.diskQueueDurable := by
  unfold commitMessages; split <;> rfl

theorem commitMessages_persistentData (s : GenState) (v : Nat) (m : List Nat) (t : Nat) :
    (commitMessages s v m t).persistentData = s.persistentData := by
  unfold commitMessages; split <;> rfl

theorem commitMessages_dqcb (s : GenState) (v : Nat) (m : List Nat) (t : Nat) :
    (commitMessages s v m t).diskQueueCommitBytes = s.diskQueueCommitBytes := by
  unfold commitMessages; split <;> rfl

theorem commitMessages_large (s : GenState) (v : Nat) (m : List Nat) (t : Nat) :
    (commitMessages s v m t).largeDiskQueueCommitBytes =
      s.largeDiskQueueCommitBytes := by
  unfold commitMessages; split <;> rfl

theorem commitMessages_vm_nil (s : GenState) (v : Nat) (t : Nat) :
    (commitMessages s v [] t).versionMessages = s.versionMessages := rfl

theorem commitMessages_nil (s : GenState) (v : Nat) (t : Nat) :
    commitMessages s v [] t = s := rfl

theorem commitMessages_vm (s : GenState) (v : Nat) (m : List Nat) (t : Nat)
    (hm : m.length ≠ 0) :
    (commitMessages s v m t).versionMessages =
      teamAppend s.versionMessages t (v, m) := by
  unfold commitMessages
  rw [if_neg hm]

/-- The state tLogCommit leaves when the request is a duplicate
(version.get() != prevVersion at line 902): only the
minKnownCommittedVersion max-update of line 877 happened. -/
theorem tLogCommitStart_dup (s : GenState) (req : CommitRequest)
    (hs : s.stopped = false) (hne : s.version ≠ req.prevVersion) :
    tLogCommitStart s req =
      ({ s with
          minKnownCommittedVersion :=
            max s.minKnownCommittedVersion req.minKnownCommittedVersion }, none) := by
  unfold tLogCommitStart
  simp only [hs]
  rw [if_neg (by simp), if_neg (by simpa using hne)]

/-- The immediate tlog_stopped reply when the generation is stopped
(lines 894-897). -/
theorem tLogCommitStart_stopped_eq (s : GenState) (req : CommitRequest)
    (hs : s.stopped = true) :
    tLogCommitStart s req =
      ({ s with
          minKnownCommittedVersion :=
            max s.minKnownCommittedVersion req.minKnownCommittedVersion },
        some (Except.error TLogError.tlogStopped)) := by
  unfold tLogCommitStart
  rw [if_pos (by simpa using hs)]

/-- The state tLogCommit builds for a fresh (non-duplicate) request. -/
theorem tLogCommitStart_nondup (s : GenState) (req : CommitRequest)
    (hs : s.stopped = false) (heq : s.version = req.prevVersion) :
    tLogCommitStart s req =
      (let s0 : GenState := { s with
        minKnownCommittedVersion :=
          max s.minKnownCommittedVersion req.minKnownCommittedVersion }
      let s1 := commitMessages s0 req.version req.messages req.storageTeamID
      let s2 : GenState := { s1 with
        knownCommittedVersion :=
          max s1.knownCommittedVersion req.knownCommittedVersion }
      ({ s2 with
          diskQueueCommitBytes := s2.diskQueueCommitBytes + req.messages.length,
          largeDiskQueueCommitBytes :=
            if MAX_QUEUE_COMMIT_BYTES < s2.diskQueueCommitBytes + req.messages.length
            then true else s2.largeDiskQueueCommitBytes,
          version := req.version }, none)) := by
  unfold tLogCommitStart
  rw [if_neg (by simp [hs]), if_pos (by simpa using heq)]

theorem tLogCommitStart_pending (s : GenState) (req : CommitRequest) :
    (tLogCommitStart s req).1.pendingQueueCommit = s.pendingQueueCommit := by
  unfold tLogCommitStart
  dsimp only
  split_ifs <;> simp [commitMessages_pending]

theorem tLogCommitStart_qcv (s : GenState) (req : CommitRequest) :
    (tLogCommitStart s req).1.queueCommittedVersion = s.queueCommittedVersion := by
  unfold tLogCommitStart
  dsimp only
  split_ifs <;> simp [commitMessages_qcv]

theorem tLogCommitStart_qcving (s : GenState) (req : CommitRequest) :
    (tLogCommitStart s req).1.queueCommittingVersion = s.queueCommittingVersion := by
  unfold tLogCommitStart
  dsimp only
  split_ifs <;> simp [commitMessages_qcving]

theorem tLogCommitStart_dkcv (s : GenState) (req : CommitRequest) :
    (tLogCommitStart s req).1.durableKnownCommittedVersion =
      s.durableKnownCommittedVersion := by
  unfold tLogCommitStart
  dsimp only
  split_ifs <;> simp [commitMessages_dkcv]

theorem tLogCommitStart_stopped (s : GenState) (req : CommitRequest) :
    (tLogCommitStart s req).1.stopped = s.stopped := by
  unfold tLogCommitStart
  dsimp only
  split_ifs <;> simp [commitMessages_stopped]

theorem tLogCommitStart_minkcv (s : GenState) (req : CommitRequest) :
    (tLogCommitStart s req).1.minKnownCommittedVersion =
      max s.minKnownCommittedVersion req.minKnownCommittedVersion := by
  unfold tLogCommitStart
  dsimp only
  split_ifs <;> simp [commitMessages_minkcv]

theorem tLogCommitStart_diskQueue (s : GenState) (req : CommitRequest) :
    (tLogCommitStart s req).1.diskQueue = s.diskQueue := by
  unfold tLogCommitStart
  dsimp only
  split_ifs <;> simp [commitMessages_diskQueue]

theorem tLogCommitStart_diskQueueDurable (s : GenState) (req : CommitRequest) :
    (tLogCommitStart s req).1.diskQueueDurable = s.diskQueueDurable := by
  unfold tLogCommitStart
  dsimp only
  split_ifs <;> simp [commitMessages_diskQueueDurable]

theorem tLogCommitStart_persistentData (s : GenState) (req : CommitRequest) :
    (tLogCommitStart s req).1.persistentData = s.persistentData := by
  unfold tLogCommitStart
  dsimp only
  split_ifs <;> simp [commitMessages_persistentData]

theorem doQueueCommitEnd_nil (s : GenState) (h : s.pendingQueueCommit = []) :
    doQueueCommitEnd s = s := by
  unfold doQueueCommitEnd
  rw [h]

theorem doQueueCommitRun_nil (s : GenState) (h : s.pendingQueueCommit = []) :
    doQueueCommitRun s =
      { s with
        queueCommittingVersion := s.version,
        diskQueueCommitBytes := 0,
        largeDiskQueueCommitBytes := false,
        durableKnownCommittedVersion := s.knownCommittedVersion,
        queueCommittedVersion := s.version,
        pendingQueueCommit := [] } := by
  unfold doQueueCommitRun doQueueCommitBegin doQueueCommitEnd
  rw [h]
  rfl

theorem teamLookup_teamAppend_self (l : List (Nat × List (Nat × List Nat)))
    (team : Nat) (e : Nat × List Nat) :
    teamLookup (teamAppend l team e) team = some ((teamLookup l team).getD [] ++ [e]) := by
  induction l with
  | nil => simp [teamAppend, teamLookup]
  | cons hd rest ih =>
    obtain ⟨t, d⟩ := hd
    by_cases h : t = team
    · subst h
      simp [teamAppend, teamLookup]
    · simp [teamAppend, teamLookup, h, ih]

theorem teamLookup_teamAppend_ne (l : List (Nat × List (Nat × List Nat)))
    (team t : Nat) (e : Nat × List Nat) (h : t ≠ team) :
    teamLookup (teamAppend l team e) t = teamLookup l t := by
  induction l with
  | nil =>
    simp [teamAppend, teamLookup, Ne.symm h]
  | cons hd rest ih =>
    obtain ⟨t0, d⟩ := hd
    by_cases h0 : t0 = team
    · subst h0
      simp [teamAppend, teamLookup, Ne.symm h]
    · by_cases h1 : t0 = t
      · subst h1
        simp [teamAppend, teamLookup, h0]
      · simp [teamAppend, teamLookup, h0, h1, ih]

/-- Inductive invariant of the generation state (spec section 3, Generation
state row), strengthened with the facts needed to push it through
doQueueCommit (the captured pairs) and commitMessages (the deque order). -/
structure GenInv (s : GenState) : Prop where
  qcv_le : s.queueCommittedVersion ≤ s.version
  kcv_le : s.knownCommittedVersion ≤ s.version
  dkcv_le : s.durableKnownCommittedVersion ≤ s.queueCommittedVersion
  committing_le : s.queueCommittingVersion ≤ s.version
  pending_ok : ∀ p ∈ s.pendingQueueCommit, p.2 ≤ p.1 ∧ p.1 ≤ s.version
  teams_ok : ∀ t d, teamLookup s.versionMessages t = some d →
    List.Pairwise (fun a b : Nat × List Nat => a.1 < b.1) d ∧ ∀ e ∈ d, e.1 ≤ s.version

theorem genInv_init : GenInv initGenState :=
  ⟨le_refl _, le_refl _, le_refl _, le_refl _,
    by intro p hp; simp [initGenState] at hp,
    by intro t d h; simp [initGenState, teamLookup] at h⟩

theorem genInv_commit (s : GenState) (req : CommitRequest)
    (hprev : req.prevVersion < req.version)
    (hkcv : req.knownCommittedVersion ≤ req.version)
    (hinv : GenInv s) : GenInv (tLogCommitStart s req).1 := by
  by_cases hs : s.stopped = true
  · rw [tLogCommitStart_stopped_eq s req hs]
    exact ⟨hinv.qcv_le, hinv.kcv_le, hinv.dkcv_le, hinv.committing_le,
      hinv.pending_ok, hinv.teams_ok⟩
  · have hs' : s.stopped = false := by simpa using hs
    by_cases he : s.version = req.prevVersion
    · rw [tLogCommitStart_nondup s req hs' he]
      dsimp only
      have h1 := hinv.qcv_le
      have h2 := hinv.kcv_le
      have h3 := hinv.dkcv_le
      have h4 := hinv.committing_le
      refine ⟨?_, ?_, ?_, ?_, ?_, ?_⟩
      · simp only [commitMessages_qcv]; omega
      · simp only [commitMessages_kcv]; omega
      · simp only [commitMessages_dkcv, commitMessages_qcv]; exact h3
      · simp only [commitMessages_qcving]; omega
      · simp only [commitMessages_pending]
        intro p hp
        have := hinv.pending_ok p hp
        omega
      · dsimp only
        by_cases hm : req.messages.length = 0
        · have hmn : req.messages = [] := List.length_eq_zero.mp hm
          rw [hmn, commitMessages_nil]
          dsimp only
          intro t d hd
          obtain ⟨hsort, hbound⟩ := hinv.teams_ok t d hd
          exact ⟨hsort, fun e he' => by have := hbound e he'; omega⟩
        · rw [commitMessages_vm _ _ _ _ hm]
          dsimp only
          intro t d hd
          by_cases ht : t = req.storageTeamID
          · subst ht
            rw [teamLookup_teamAppend_self] at hd
            injection hd with hd
            subst hd
            cases holk : teamLookup s.versionMessages req.storageTeamID with
            | none =>
              simp only [Option.getD_none, List.nil_append]
              refine ⟨List.pairwise_singleton _ _, ?_⟩
              intro e he'
              simp only [List.mem_singleton] at he'
              subst he'
              exact le_refl _
            | some d0 =>
              simp only [Option.getD_some]
              obtain ⟨hsort, hbound⟩ := hinv.teams_ok req.storageTeamID d0 holk
              constructor
              · rw [List.pairwise_append]
                refine ⟨hsort, List.pairwise_singleton _ _, ?_⟩
                intro a ha b hb
                simp only [List.mem_singleton] at hb
                subst hb
                have := hbound a ha
                omega
              · intro e he'
                rw [List.mem_append] at he'
                rcases he' with he' | he'
                · have := hbound e he'; omega
                · simp only [List.mem_singleton] at he'
                  subst he'
                  exact le_refl _
          · rw [teamLookup_teamAppend_ne _ _ _ _ ht] at hd
            obtain ⟨hsort, hbound⟩ := hinv.teams_ok t d hd
            exact ⟨hsort, fun e he' => by have := hbound e he'; omega⟩
    · rw [tLogCommitStart_dup s req hs' he]
      exact ⟨hinv.qcv_le, hinv.kcv_le, hinv.dkcv_le, hinv.committing_le,
        hinv.pending_ok, hinv.teams_ok⟩

theorem genInv_qcBegin (s : GenState) (hinv : GenInv s) :
    GenInv (doQueueCommitBegin s) := by
  refine ⟨hinv.qcv_le, hinv.kcv_le, hinv.dkcv_le, le_refl _, ?_, hinv.teams_ok⟩
  intro p hp
  simp only [doQueueCommitBegin, List.mem_append, List.mem_singleton] at hp
  rcases hp with hp | hp
  · exact hinv.pending_ok p hp
  · subst hp
    exact ⟨hinv.kcv_le, le_refl _⟩

theorem genInv_qcEnd (s : GenState) (hinv : GenInv s) :
    GenInv (doQueueCommitEnd s) := by
  cases hp : s.pendingQueueCommit with
  | nil => rw [doQueueCommitEnd_nil s hp]; exact hinv
  | cons vk rest =>
    obtain ⟨v, k⟩ := vk
    have hvk := hinv.pending_ok (v, k) (by rw [hp]; exact List.mem_cons_self _ _)
    unfold doQueueCommitEnd
    rw [hp]
    refine ⟨hvk.2, hinv.kcv_le, hvk.1, hinv.committing_le, ?_, hinv.teams_ok⟩
    intro p hpm
    exact hinv.pending_ok p (by rw [hp]; exact List.mem_cons_of_mem _ hpm)

theorem genInv_step (s s' : GenState) (hstep : GenStep s s') (hinv : GenInv s) :
    GenInv s' := by
  cases hstep with
  | commit req hprev hkcv => exact genInv_commit s req hprev hkcv hinv
  | queueCommitBegin hguard => exact genInv_qcBegin s hinv
  | queueCommitEnd => exact genInv_qcEnd s hinv
  | stop =>
    exact ⟨hinv.qcv_le, hinv.kcv_le, hinv.dkcv_le, hinv.committing_le,
      hinv.pending_ok, hinv.teams_ok⟩

theorem genInv_reachable (s : GenState) (h : ReachableGen s) : GenInv s := by
  induction h with
  | refl => exact genInv_init
  | tail hsteps hstep ih => exact genInv_step _ _ hstep ih

/-- Claim C3: every generation state reachable through the commit handler
and the queue-commit loop satisfies queueCommittedVersion <= version,
knownCommittedVersion <= version and durableKnownCommittedVersion <=
queueCommittedVersion, and each step of tLogCommit / doQueueCommit
preserves all three inequalities. Commit requests carry the system's
request discipline (prevVersion < version, knownCommittedVersion <=
version), as encoded in GenStep. -/
theorem claimC3_version_order_invariants :
    ∀ s : GenState, ReachableGen s →
      (s.queueCommittedVersion ≤ s.version ∧
        s.knownCommittedVersion ≤ s.version ∧
        s.durableKnownCommittedVersion ≤ s.queueCommittedVersion) ∧
      ∀ s' : GenState, GenStep s s' →
        s'.queueCommittedVersion ≤ s'.version ∧
          s'.knownCommittedVersion ≤ s'.version ∧
          s'.durableKnownCommittedVersion ≤ s'.queueCommittedVersion := by
  intro s hs
  have hinv := genInv_reachable s hs
  refine ⟨⟨hinv.qcv_le, hinv.kcv_le, hinv.dkcv_le⟩, ?_⟩
  intro s' hstep
  have hinv' := genInv_step s s' hstep hinv
  exact ⟨hinv'.qcv_le, hinv'.kcv_le, hinv'.dkcv_le⟩

/-- Witness for C3 at a concrete reachable state: a commit of version 10
followed by a full doQueueCommit. -/
theorem claimC3_version_order_invariants_witness :
    (doQueueCommitEnd (doQueueCommitBegin
        ((tLogCommitStart initGenState ⟨5, [1, 2, 3, 4], 0, 10, 7, 2⟩).1))).queueCommittedVersion ≤
      (doQueueCommitEnd (doQueueCommitBegin
        ((tLogCommitStart initGenState ⟨5, [1, 2, 3, 4], 0, 10, 7, 2⟩).1))).version ∧
    (doQueueCommitEnd (doQueueCommitBegin
        ((tLogCommitStart initGenState ⟨5, [1, 2, 3, 4], 0, 10, 7, 2⟩).1))).knownCommittedVersion ≤
      (doQueueCommitEnd (doQueueCommitBegin
        ((tLogCommitStart initGenState ⟨5, [1, 2, 3, 4], 0, 10, 7, 2⟩).1))).version ∧
    (doQueueCommitEnd (doQueueCommitBegin
        ((tLogCommitStart initGenState ⟨5, [1, 2, 3, 4], 0, 10, 7, 2⟩).1))).durableKnownCommittedVersion ≤
      (doQueueCommitEnd (doQueueCommitBegin
        ((tLogCommitStart initGenState ⟨5, [1, 2, 3, 4], 0, 10, 7, 2⟩).1))).queueCommittedVersion := by
  have hreach : ReachableGen (doQueueCommitEnd (doQueueCommitBegin
      ((tLogCommitStart initGenState ⟨5, [1, 2, 3, 4], 0, 10, 7, 2⟩).1))) :=
    Relation.ReflTransGen.tail
      (Relation.ReflTransGen.tail
        (Relation.ReflTransGen.single
          (GenStep.commit initGenState ⟨5, [1, 2, 3, 4], 0, 10, 7, 2⟩
            (by decide) (by decide)))
        (GenStep.queueCommitBegin _ (by decide)))
      (GenStep.queueCommitEnd _)
  exact (claimC3_version_order_invariants _ hreach).1

/-- Claim C7: under the precondition that every commit request satisfies
prevVersion < version (encoded in GenStep), no storage team's
versionMessages deque ever contains two entries with the same version, in
any state reachable by any sequence of possibly-duplicated commit
requests (and queue commits and stops). -/
theorem claimC7_no_duplicate_deque_versions :
    ∀ s : GenState, ReachableGen s → ∀ t d,
      teamLookup s.versionMessages t = some d →
      List.Pairwise (fun a b : Nat × List Nat => a.1 ≠ b.1) d := by
  intro s hs t d hd
  exact ((genInv_reachable s hs).teams_ok t d hd).1.imp fun h => Nat.ne_of_lt h

/-- Witness for C7 at a concrete reachable state with a nonempty deque. -/
theorem claimC7_no_duplicate_deque_versions_witness :
    teamLookup (tLogCommitStart initGenState ⟨5, [9, 9], 0, 10, 0, 0⟩).1.versionMessages 5 =
      some [(10, [9, 9])] ∧
    List.Pairwise (fun a b : Nat × List Nat => a.1 ≠ b.1) [(10, [9, 9])] :=
  ⟨by decide,
    claimC7_no_duplicate_deque_versions _
      (Relation.ReflTransGen.single
        (GenStep.commit initGenState ⟨5, [9, 9], 0, 10, 0, 0⟩ (by decide) (by decide)))
      5 [(10, [9, 9])] (by decide)⟩

theorem tLogCommitStart_snd_nondup (s : GenState) (req : CommitRequest)
    (hs : s.stopped = false) (heq : s.version = req.prevVersion) :
    (tLogCommitStart s req).2 = none := by
  rw [tLogCommitStart_nondup s req hs heq]

theorem tLogCommitStart_version_nondup (s : GenState) (req : CommitRequest)
    (hs : s.stopped = false) (heq : s.version = req.prevVersion) :
    (tLogCommitStart s req).1.version = req.version := by
  rw [tLogCommitStart_nondup s req hs heq]

/-- Claim C1: a commit request is treated as a duplicate exactly when the
generation's version differs from the request's prevVersion after the
prior-version wait — behaviourally, the handler leaves the state unchanged
(beyond the always-performed minKnownCommittedVersion max-update) iff
version differs from prevVersion; and submitting the same request twice,
with the queue commit in between, makes the second submission a duplicate
that performs no append (the state — team deques, message blocks, byte
counters — is exactly unchanged) and both replies equal the current
durableKnownCommittedVersion. -/
theorem claimC1_duplicate_detection (s : GenState) (req : CommitRequest)
    (hs : s.stopped = false) (hver : req.prevVersion < req.version) :
    ((tLogCommitStart s req).1 =
        { s with
          minKnownCommittedVersion :=
            max s.minKnownCommittedVersion req.minKnownCommittedVersion }
      ↔ s.version ≠ req.prevVersion) ∧
    (s.pendingQueueCommit = [] → s.version = req.prevVersion →
      (tLogCommitStart s req).2 = none ∧
      (doQueueCommitRun (tLogCommitStart s req).1).queueCommittedVersion = req.version ∧
      tLogCommitStart (doQueueCommitRun (tLogCommitStart s req).1) req =
        (doQueueCommitRun (tLogCommitStart s req).1, none) ∧
      tLogCommitFinish (tLogCommitStart (doQueueCommitRun (tLogCommitStart s req).1) req).1 false =
        Except.ok (doQueueCommitRun (tLogCommitStart s req).1).durableKnownCommittedVersion ∧
      tLogCommitFinish (doQueueCommitRun (tLogCommitStart s req).1) false =
        Except.ok (doQueueCommitRun (tLogCommitStart s req).1).durableKnownCommittedVersion) := by
  constructor
  · constructor
    · intro h
      intro hne
      have hv := tLogCommitStart_version_nondup s req hs hne
      rw [h] at hv
      have hv2 : s.version = req.version := hv
      exact absurd rfl (by omega : s.version ≠ s.version)
    · intro hne
      rw [tLogCommitStart_dup s req hs hne]
  · intro hpend heq
    have hpend1 : (tLogCommitStart s req).1.pendingQueueCommit = [] := by
      rw [tLogCommitStart_pending]; exact hpend
    have hrun := doQueueCommitRun_nil _ hpend1
    have hqcv : (doQueueCommitRun (tLogCommitStart s req).1).queueCommittedVersion =
        req.version := by
      rw [hrun]
      exact tLogCommitStart_version_nondup s req hs heq
    have hstop2 : (doQueueCommitRun (tLogCommitStart s req).1).stopped = false := by
      rw [hrun]
      show (tLogCommitStart s req).1.stopped = false
      rw [tLogCommitStart_stopped]; exact hs
    have hver2 : (doQueueCommitRun (tLogCommitStart s req).1).version ≠ req.prevVersion := by
      rw [hrun]
      show (tLogCommitStart s req).1.version ≠ req.prevVersion
      rw [tLogCommitStart_version_nondup s req hs heq]
      omega
    have hmk : max (doQueueCommitRun (tLogCommitStart s req).1).minKnownCommittedVersion
        req.minKnownCommittedVersion =
        (doQueueCommitRun (tLogCommitStart s req).1).minKnownCommittedVersion := by
      have h1 : (doQueueCommitRun (tLogCommitStart s req).1).minKnownCommittedVersion =
          max s.minKnownCommittedVersion req.minKnownCommittedVersion := by
        rw [hrun]
        show (tLogCommitStart s req).1.minKnownCommittedVersion = _
        exact tLogCommitStart_minkcv s req
      rw [h1, Nat.max_assoc, Nat.max_self]
    have hdup := tLogCommitStart_dup (doQueueCommitRun (tLogCommitStart s req).1) req
      hstop2 hver2
    rw [hmk] at hdup
    refine ⟨tLogCommitStart_snd_nondup s req hs heq, hqcv, ?_, ?_, rfl⟩
    · rw [hdup]
    · rw [hdup]
      rfl

/-- Witness for C1: version-10 commit of team 5 submitted twice against the
fresh generation, with the queue commit in between. -/
theorem claimC1_duplicate_detection_witness :
    (tLogCommitStart initGenState ⟨5, [9, 9], 0, 10, 0, 0⟩).2 = none ∧
    tLogCommitStart (doQueueCommitRun (tLogCommitStart initGenState ⟨5, [9, 9], 0, 10, 0, 0⟩).1)
        ⟨5, [9, 9], 0, 10, 0, 0⟩ =
      (doQueueCommitRun (tLogCommitStart initGenState ⟨5, [9, 9], 0, 10, 0, 0⟩).1, none) ∧
    tLogCommitFinish (doQueueCommitRun (tLogCommitStart initGenState ⟨5, [9, 9], 0, 10, 0, 0⟩).1)
        false =
      Except.ok (doQueueCommitRun
        (tLogCommitStart initGenState ⟨5, [9, 9], 0, 10, 0, 0⟩).1).durableKnownCommittedVersion := by
  have h := (claimC1_duplicate_detection initGenState ⟨5, [9, 9], 0, 10, 0, 0⟩ rfl
    (by decide)).2 rfl rfl
  exact ⟨h.1, h.2.2.1, h.2.2.2.2⟩

/-- Claim C2: a commit against a stopped generation is answered
tlog_stopped and receives no durableKnownCommittedVersion reply — at
dispatch (serveTLogInterface_PassivelyPull line 1086-1087), after the
backpressure wait (tLogCommit lines 894-897, the whole reply being the
error), and when the generation stops while the commit waits for
queueCommittedVersion (lines 934-942, stopCommit fired). -/
theorem claimC2_stopped_replies (s : GenState) (req : CommitRequest) :
    (s.stopped = true → serveCommitDispatch true s = some TLogError.tlogStopped) ∧
    (s.stopped = true →
      tLogCommitStart s req =
        ({ s with
            minKnownCommittedVersion :=
              max s.minKnownCommittedVersion req.minKnownCommittedVersion },
          some (Except.error TLogError.tlogStopped))) ∧
    tLogCommitFinish s true = Except.error TLogError.tlogStopped := by
  refine ⟨?_, ?_, rfl⟩
  · intro h
    simp [serveCommitDispatch, h]
  · intro h
    exact tLogCommitStart_stopped_eq s req h

/-- Witness for C2 on a concrete stopped generation. -/
theorem claimC2_stopped_replies_witness :
    serveCommitDispatch true { initGenState with stopped := true } =
      some TLogError.tlogStopped ∧
    (tLogCommitStart { initGenState with stopped := true } ⟨5, [9], 0, 10, 0, 0⟩).2 =
      some (Except.error TLogError.tlogStopped) ∧
    tLogCommitFinish { initGenState with stopped := true } true =
      Except.error TLogError.tlogStopped := by
  refine ⟨(claimC2_stopped_replies { initGenState with stopped := true }
    ⟨5, [9], 0, 10, 0, 0⟩).1 rfl, ?_,
    (claimC2_stopped_replies { initGenState with stopped := true }
      ⟨5, [9], 0, 10, 0, 0⟩).2.2⟩
  rw [(claimC2_stopped_replies { initGenState with stopped := true }
    ⟨5, [9], 0, 10, 0, 0⟩).2.1 rfl]

/-- Claim C6 (amended): an empty non-duplicate commit is accepted — no
error is sent at the start and the reply phase returns the current
durableKnownCommittedVersion — and produces no queue entry, no team-index
entry, no message block and no byte-counter change; however, contrary to
the claim as stated, tLogCommit still advances the generation version to
req.version (line 928 runs for every non-duplicate). -/
theorem claimC6_empty_commit (s : GenState) (req : CommitRequest)
    (hs : s.stopped = false) (heq : s.version = req.prevVersion)
    (hm : req.messages = []) :
    (tLogCommitStart s req).2 = none ∧
    (tLogCommitStart s req).1.versionMessages = s.versionMessages ∧
    (tLogCommitStart s req).1.messageBlocks = s.messageBlocks ∧
    (tLogCommitStart s req).1.bytesInput = s.bytesInput ∧
    (tLogCommitStart s req).1.diskQueue = s.diskQueue ∧
    (tLogCommitStart s req).1.diskQueueCommitBytes = s.diskQueueCommitBytes ∧
    (tLogCommitStart s req).1.version = req.version ∧
    tLogCommitFinish (tLogCommitStart s req).1 false =
      Except.ok (tLogCommitStart s req).1.durableKnownCommittedVersion := by
  rw [tLogCommitStart_nondup s req hs heq, hm]
  dsimp only
  rw [commitMessages_nil]
  refine ⟨rfl, rfl, rfl, rfl, rfl, by simp, rfl, rfl⟩

/-- Counterexample to C6 as stated: the empty commit (prev 0, version 10)
against the fresh generation advances the generation version from 0 to 10,
while the claim says an empty commit does not advance the version. -/
theorem claimC6_empty_commit_counterexample :
    (tLogCommitStart initGenState ⟨5, [], 0, 10, 0, 0⟩).1.version = 10 ∧
    initGenState.version = 0 ∧ (10 : Nat) ≠ 0 :=
  ⟨rfl, rfl, by decide⟩

/-- Witness for C6 at a concrete empty commit. -/
theorem claimC6_empty_commit_witness :
    (tLogCommitStart initGenState ⟨5, [], 0, 10, 0, 0⟩).2 = none ∧
    (tLogCommitStart initGenState ⟨5, [], 0, 10, 0, 0⟩).1.versionMessages =
      initGenState.versionMessages ∧
    (tLogCommitStart initGenState ⟨5, [], 0, 10, 0, 0⟩).1.messageBlocks =
      initGenState.messageBlocks ∧
    (tLogCommitStart initGenState ⟨5, [], 0, 10, 0, 0⟩).1.bytesInput =
      initGenState.bytesInput ∧
    (tLogCommitStart initGenState ⟨5, [], 0, 10, 0, 0⟩).1.diskQueue =
      initGenState.diskQueue ∧
    (tLogCommitStart initGenState ⟨5, [], 0, 10, 0, 0⟩).1.diskQueueCommitBytes =
      initGenState.diskQueueCommitBytes ∧
    (tLogCommitStart initGenState ⟨5, [], 0, 10, 0, 0⟩).1.version = 10 ∧
    tLogCommitFinish (tLogCommitStart initGenState ⟨5, [], 0, 10, 0, 0⟩).1 false =
      Except.ok (tLogCommitStart initGenState
        ⟨5, [], 0, 10, 0, 0⟩).1.durableKnownCommittedVersion :=
  claimC6_empty_commit initGenState ⟨5, [], 0, 10, 0, 0⟩ rfl rfl rfl

/-- Claim C10: the commit path performs no durable write — tLogCommit never
pushes the built queue entry to the persistent disk queue (the push at line
920 is commented out) and doQueueCommit waits on an immediately-ready
future instead of committing the disk queue (lines 771-773), so a full
doQueueCommit advances queueCommittedVersion to the version and
durableKnownCommittedVersion to the knownCommittedVersion captured at its
start while the disk-queue bytes, the durable prefix and the key/value
store writes all stay unchanged. -/
theorem claimC10_commit_path_no_durable_write (s : GenState) (req : CommitRequest)
    (hpend : s.pendingQueueCommit = []) :
    (tLogCommitStart s req).1.diskQueue = s.diskQueue ∧
    (tLogCommitStart s req).1.diskQueueDurable = s.diskQueueDurable ∧
    (tLogCommitStart s req).1.persistentData = s.persistentData ∧
    (doQueueCommitRun s).diskQueue = s.diskQueue ∧
    (doQueueCommitRun s).diskQueueDurable = s.diskQueueDurable ∧
    (doQueueCommitRun s).persistentData = s.persistentData ∧
    (doQueueCommitRun s).queueCommittedVersion = s.version ∧
    (doQueueCommitRun s).durableKnownCommittedVersion = s.knownCommittedVersion := by
  refine ⟨tLogCommitStart_diskQueue s req, tLogCommitStart_diskQueueDurable s req,
    tLogCommitStart_persistentData s req, ?_, ?_, ?_, ?_, ?_⟩ <;>
    rw [doQueueCommitRun_nil s hpend]

/-- Witness for C10 at a concrete commit of team 5. -/
theorem claimC10_commit_path_no_durable_write_witness :
    (tLogCommitStart initGenState ⟨5, [9, 9], 0, 10, 0, 0⟩).1.diskQueue =
      initGenState.diskQueue ∧
    (tLogCommitStart initGenState ⟨5, [9, 9], 0, 10, 0, 0⟩).1.diskQueueDurable =
      initGenState.diskQueueDurable ∧
    (tLogCommitStart initGenState ⟨5, [9, 9], 0, 10, 0, 0⟩).1.persistentData =
      initGenState.persistentData ∧
    (doQueueCommitRun initGenState).diskQueue = initGenState.diskQueue ∧
    (doQueueCommitRun initGenState).diskQueueDurable = initGenState.diskQueueDurable ∧
    (doQueueCommitRun initGenState).persistentData = initGenState.persistentData ∧
    (doQueueCommitRun initGenState).queueCommittedVersion = initGenState.version ∧
    (doQueueCommitRun initGenState).durableKnownCommittedVersion =
      initGenState.knownCommittedVersion :=
  claimC10_commit_path_no_durable_write initGenState ⟨5, [9, 9], 0, 10, 0, 0⟩ rfl

/-- Claim C4 (amended): on recovery replay, (1) a frame whose 4-byte length
field can only be partially read (1-3 bytes) ends the stream with a
zero-fill of (4 - read) + declaredPayload + 1 bytes, rounding the partial
frame up to a full record boundary; (2) a frame whose declared payload plus
valid byte cannot be fully read ends the stream with a zero-fill of the
missing byte count; (3) — contrary to the claim as stated — a frame whose
valid byte is 0 (not 1) is skipped and reading continues (such frames are
exactly the zero-filled remnants of earlier recoveries; a valid byte other
than 0 or 1 fails ASSERT(e[payloadSize] == 1)); (4) a partially written
record is never yielded: every yielded record occurs in the stream as an
intact frame. -/
theorem claimC4_recovery_truncation :
    (∀ bytes : List Nat, 0 < bytes.length → bytes.length < 4 →
      replayFrames bytes = ([], ReplayTail.eos (4 - bytes.length + readLE bytes + 1))) ∧
    (∀ (n : Nat) (rest : List Nat), n < 100 * 2 ^ 20 → rest.length < n + 1 →
      replayFrames (leBytes 4 n ++ rest) = ([], ReplayTail.eos (n + 1 - rest.length))) ∧
    (∀ p rest : List Nat, p.length < 100 * 2 ^ 20 →
      replayFrames (skipFrameOf p ++ rest) = replayFrames rest) ∧
    (∀ bytes : List Nat, (∀ b ∈ bytes, b < 256) →
      ∀ r ∈ (replayFrames bytes).1, ∃ pre post, bytes = pre ++ (frameOf r ++ post)) := by
  refine ⟨?_, ?_, ?_, ?_⟩
  · intro bytes h0 h4
    rw [replayFrames, replayFramesGo_succ, if_pos h4, if_neg (by omega)]
  · intro n rest hn hshort
    have hlen : (leBytes 4 n ++ rest).length = 4 + rest.length := by
      simp [leBytes_length]
    have htk : (leBytes 4 n ++ rest).take 4 = leBytes 4 n := take_leBytes_append _ _ _
    have hdr : (leBytes 4 n ++ rest).drop 4 = rest := drop_leBytes_append _ _ _
    have hrd : readLE (leBytes 4 n) = n :=
      readLE_leBytes_eq _ _ (by norm_num; omega)
    rw [replayFrames, replayFramesGo_succ, htk, hrd, hdr, hlen,
      if_neg (by omega), if_neg (by omega), if_pos hshort]
  · intro p rest hp
    exact replayFrames_skipFrame p rest hp
  · intro bytes hb r hr
    exact replayFramesGo_records_intact (bytes.length + 1) (bytes.length + 1) bytes
      (by omega) (by omega) hb r hr

/-- Counterexample to C4 as stated: the stream holds a frame with valid
byte 0 (declared length 0) followed by an intact frame with payload [55];
the claim as stated predicts zero-fill and end-of-stream with no record at
the first frame, but the reader skips it, yields the record [55], and ends
with no zero-fill. -/
theorem claimC4_recovery_truncation_counterexample :
    replayFrames [0, 0, 0, 0, 0, 1, 0, 0, 0, 55, 1] = ([[55]], ReplayTail.eos 0) ∧
    ([[55]] : List (List Nat)) ≠ [] :=
  ⟨rfl, by decide⟩

/-- Witness for C4 at concrete inputs: a 1-byte truncated length field, a
truncated payload, a skipped valid-0 frame, and a concrete intact-frame
decomposition. -/
theorem claimC4_recovery_truncation_witness :
    replayFrames [7] = ([], ReplayTail.eos (4 - 1 + 7 + 1)) ∧
    replayFrames (leBytes 4 2 ++ [9]) = ([], ReplayTail.eos (2 + 1 - 1)) ∧
    replayFrames (skipFrameOf [3] ++ (frameOf [55] ++ [])) =
      replayFrames (frameOf [55] ++ []) ∧
    ∃ pre post, [1, 0, 0, 0, 55, 1] = pre ++ (frameOf [55] ++ post) := by
  refine ⟨claimC4_recovery_truncation.1 [7] (by decide) (by decide),
    claimC4_recovery_truncation.2.1 2 [9] (by decide) (by decide),
    claimC4_recovery_truncation.2.2.1 [3] (frameOf [55] ++ []) (by decide),
    claimC4_recovery_truncation.2.2.2 [1, 0, 0, 0, 55, 1] (by decide) [55] ?_⟩
  rw [show replayFrames [1, 0, 0, 0, 55, 1] = ([[55]], ReplayTail.eos 0) from rfl]
  exact List.mem_singleton.mpr rfl

/-- The byte stream TLogQueue::push builds for a list of entries. -/
def queueBytes : List TLogQueueEntryM → List Nat
  | [] => []
  | e :: rest => frameOf (encodeEntry e) ++ queueBytes rest

theorem pushAll_diskQueue (X : List TLogQueueEntryM) :
    ∀ s : GenState, (pushAll s X).diskQueue = s.diskQueue ++ queueBytes X := by
  induction X with
  | nil => intro s; simp [pushAll, queueBytes]
  | cons e X ih =>
    intro s
    show (pushAll (tLogQueuePush s e) X).diskQueue = _
    rw [ih (tLogQueuePush s e)]
    simp [tLogQueuePush, queueBytes, List.append_assoc]

theorem replayFrames_queueBytes (X : List TLogQueueEntryM)
    (hX : ∀ e ∈ X, wfEntry e) :
    replayFrames (queueBytes X) =
      (X.map fun e => encodeEntry e, ReplayTail.eos 0) := by
  induction X with
  | nil => rfl
  | cons e X ih =>
    have hwf := hX e (List.mem_cons_self _ _)
    have hlen : (encodeEntry e).length < 100 * 2 ^ 20 := by
      rw [encodeEntry_length]
      have := hwf.2.2.2.2.2.2
      omega
    show replayFrames (frameOf (encodeEntry e) ++ queueBytes X) = _
    rw [replayFrames_frame _ _ hlen, ih (fun e' he' => hX e' (List.mem_cons_of_mem _ he'))]
    rfl

theorem map_decodeEntry_encodeEntry (X : List TLogQueueEntryM)
    (hX : ∀ e ∈ X, wfEntry e) :
    (X.map encodeEntry).map decodeEntry = X.map some := by
  induction X with
  | nil => rfl
  | cons a t ih =>
      have ha : wfEntry a := hX a (List.mem_cons_self a t)
      have ht : ∀ e ∈ t, wfEntry e := fun e he => hX e (List.mem_cons_of_mem a he)
      calc ((a :: t).map encodeEntry).map decodeEntry
          = decodeEntry (encodeEntry a) :: (t.map encodeEntry).map decodeEntry := rfl
        _ = some a :: t.map some := by
            rw [decodeEntry_encodeEntry a ha, ih ht]

/-- Claim C5: pushing a sequence X of queue entries through
TLogQueue::push, committing, and replaying with readNext after recovery
yields exactly the entries of X — each with version,
knownCommittedVersion, id, storageTeamId and messages intact (decodeEntry
returns the original entry for every record) — in push order. -/
theorem claimC5_queue_roundtrip (X : List TLogQueueEntryM)
    (hX : ∀ e ∈ X, wfEntry e) (s : GenState) (hq : s.diskQueue = []) :
    ((replayFrames (recoveredBytes (tLogQueueCommit (pushAll s X)))).1.map decodeEntry =
      X.map some) ∧
    (replayFrames (recoveredBytes (tLogQueueCommit (pushAll s X)))).2 =
      ReplayTail.eos 0 := by
  have hrec : recoveredBytes (tLogQueueCommit (pushAll s X)) = queueBytes X := by
    have h1 : (tLogQueueCommit (pushAll s X)).diskQueue = (pushAll s X).diskQueue := rfl
    have h2 : (tLogQueueCommit (pushAll s X)).diskQueueDurable =
        (pushAll s X).diskQueue.length := rfl
    unfold recoveredBytes
    rw [h1, h2, List.take_length, pushAll_diskQueue X s, hq, List.nil_append]
  rw [hrec, replayFrames_queueBytes X hX]
  exact ⟨map_decodeEntry_encodeEntry X hX, rfl⟩

/-- Witness for C5 with two concrete entries. -/
theorem claimC5_queue_roundtrip_witness :
    ((replayFrames (recoveredBytes (tLogQueueCommit (pushAll initGenState
        [⟨1, 2, 3, 4, 10, 5, [97, 98]⟩, ⟨1, 2, 3, 4, 20, 10, [99]⟩])))).1.map decodeEntry =
      ([⟨1, 2, 3, 4, 10, 5, [97, 98]⟩, ⟨1, 2, 3, 4, 20, 10, [99]⟩] :
        List TLogQueueEntryM).map some) ∧
    (replayFrames (recoveredBytes (tLogQueueCommit (pushAll initGenState
        [⟨1, 2, 3, 4, 10, 5, [97, 98]⟩, ⟨1, 2, 3, 4, 20, 10, [99]⟩])))).2 =
      ReplayTail.eos 0 :=
  claimC5_queue_roundtrip [⟨1, 2, 3, 4, 10, 5, [97, 98]⟩, ⟨1, 2, 3, 4, 20, 10, [99]⟩]
    (by decide) initGenState rfl

/-! ### Backup mutation-log file decoder (FileDecoder)

The definitions below embed the backup-log decoder: its key/value/block
formats and the batch stitching loop.  Machine integers are modelled as
Nat with explicit truncation; a read past the end of a buffer throws the
reader failure error (restore_corrupted_data), modelled as
DecErr.corruptData; an ASSERT failure raises internal_error, modelled as
DecErr.internalError. -/

inductive DecErr where
  | corruptData
  | corruptPadding
  | unsupportedVersion
  | internalError
deriving DecidableEq, Repr

deriving instance DecidableEq for Except

/-- Left rotation of the 32-bit value x by k (lookup3 rot). -/
def rot32 (x k : Nat) : Nat := x * 2 ^ k % 2 ^ 32 + x / 2 ^ (32 - k)

/-- Wrapping 32-bit subtraction. -/
def sub32 (x y : Nat) : Nat := (x + 2 ^ 32 - y % 2 ^ 32) % 2 ^ 32

/-- The final mixing rounds of lookup3, returning c. -/
def hfinal (a b c : Nat) : Nat :=
  let c1 := sub32 (c ^^^ b) (rot32 b 14)
  let a1 := sub32 (a ^^^ c1) (rot32 c1 11)
  let b1 := sub32 (b ^^^ a1) (rot32 a1 25)
  let c2 := sub32 (c1 ^^^ b1) (rot32 b1 16)
  let a2 := sub32 (a1 ^^^ c2) (rot32 c2 4)
  let b2 := sub32 (b1 ^^^ a2) (rot32 a2 14)
  sub32 (c2 ^^^ b2) (rot32 b2 24)

/-- The lookup3 hashlittle of a single aligned 32-bit word with initval 0:
a, b and c start at 0xdeadbeef + length; a absorbs the word; final mixes. -/
def hashlittle4 (w : Nat) : Nat :=
  hfinal ((0xdeadbeef + 4 + w) % 2 ^ 32) ((0xdeadbeef + 4) % 2 ^ 32)
    ((0xdeadbeef + 4) % 2 ^ 32)

/-- Value of the client knob LOG_RANGE_BLOCK_SIZE; the knob definition
lives outside this repository, its default value is 1e6. -/
def LOG_RANGE_BLOCK_SIZE : Nat := 1000000

/-- Hash byte stored at the front of a mutation-log key: the low byte of
hashlittle over the 4 bytes of version / LOG_RANGE_BLOCK_SIZE truncated
to 32 bits. -/
def hashByte (v : Nat) : Nat := hashlittle4 (v / LOG_RANGE_BLOCK_SIZE % 2 ^ 32) % 256

/-- Embedding of decode_key: a 13-byte key hash, version (big-endian 64)
and part (big-endian 32).  Both ASSERTs (size and hash) are internal
errors. -/
def decode_key (key : List Nat) : Except DecErr (Nat × Nat) :=
  if key.length = 13 then
    if hashByte (readBE ((key.drop 1).take 8)) = key.headD 0 then
      Except.ok (readBE ((key.drop 1).take 8), readBE ((key.drop 9).take 4))
    else Except.error DecErr.internalError
  else Except.error DecErr.internalError

/-- Key layout written by backup for a given version and part number. -/
def encodeKey (v p : Nat) : List Nat :=
  hashByte v :: (beBytes 8 v ++ beBytes 4 p)

theorem decode_key_encodeKey (v p : Nat) (hv : v < 256 ^ 8) (hp : p < 256 ^ 4) :
    decode_key (encodeKey v p) = Except.ok (v, p) := by
  have hlen : (encodeKey v p).length = 13 := by
    simp [encodeKey, beBytes_length]
  have hdrop1 : (encodeKey v p).drop 1 = beBytes 8 v ++ beBytes 4 p := rfl
  have htake : ((encodeKey v p).drop 1).take 8 = beBytes 8 v := by
    rw [hdrop1]
    have h := take_len_append (beBytes 8 v) (beBytes 4 p)
    rwa [beBytes_length] at h
  have hdrop9 : ((encodeKey v p).drop 9).take 4 = beBytes 4 p := by
    have h9 : (encodeKey v p).drop 9 = (beBytes 8 v ++ beBytes 4 p).drop 8 := by
      rw [show (9 : Nat) = 1 + 8 from rfl, drop_split, hdrop1]
    have hd := drop_len_append (beBytes 8 v) (beBytes 4 p)
    rw [beBytes_length] at hd
    rw [h9, hd]
    exact List.take_of_length_le (by rw [beBytes_length])
  have hhead : (encodeKey v p).headD 0 = hashByte v := by
    show (hashByte v :: (beBytes 8 v ++ beBytes 4 p)).headD 0 = hashByte v
    rw [List.headD_cons]
  unfold decode_key
  rw [if_pos hlen, htake, readBE_beBytes_eq 8 v hv, hhead, if_pos rfl, hdrop9,
    readBE_beBytes_eq 4 p hp]

/-- Decoded mutation: type, first parameter, second parameter. -/
structure MutationM where
  mtype : Nat
  param1 : List Nat
  param2 : List Nat
deriving DecidableEq, Repr

/-- Loop of decode_value: repeatedly read a mutation header of three
little-endian 32-bit words (type, first length, second length) followed by
the two parameters; a read past the end is the reader failure
restore_corrupted_data.  Fuel-based recursion; any fuel above the byte
count is enough. -/
def decodeMutsGo : Nat → List Nat → List MutationM → Except DecErr (List MutationM)
  | 0, _, _ => Except.error DecErr.internalError
  | fuel + 1, bs, acc =>
    if bs.length = 0 then Except.ok acc.reverse
    else
      if 12 ≤ bs.length ∧
          readLE ((bs.drop 4).take 4) + readLE ((bs.drop 8).take 4) ≤ bs.length - 12 then
        decodeMutsGo fuel
          ((bs.drop 12).drop (readLE ((bs.drop 4).take 4) + readLE ((bs.drop 8).take 4)))
          ({ mtype := readLE (bs.take 4),
             param1 := (bs.drop 12).take (readLE ((bs.drop 4).take 4)),
             param2 := ((bs.drop 12).drop (readLE ((bs.drop 4).take 4))).take
               (readLE ((bs.drop 8).take 4)) } :: acc)
      else Except.error DecErr.corruptData

/-- Embedding of decode_value: consume the 64-bit includeVersion and the
32-bit value length, ASSERT the length matches (an internal error
otherwise), then decode mutations until the end of the buffer. -/
def decode_value (value : List Nat) : Except DecErr (List MutationM) :=
  if 12 ≤ value.length then
    if readLE ((value.drop 8).take 4) = value.length - 12 then
      decodeMutsGo (value.length + 1) (value.drop 12) []
    else Except.error DecErr.internalError
  else Except.error DecErr.corruptData

/-- Scan loop of getNextBatchImpl: starting after the first record of a
batch, keep consuming records while they carry the same version, checking
that part numbers increase by exactly one (a gap is
restore_corrupted_data), and concatenate their values onto the stitched
buffer.  Returns the stitched buffer and the remaining records. -/
def scanParts : Nat → List (List Nat × List Nat) → Nat → Nat → List Nat →
    Except DecErr (List Nat × List (List Nat × List Nat))
  | 0, _, _, _, _ => Except.error DecErr.internalError
  | _ + 1, [], _, _, buf => Except.ok (buf, [])
  | fuel + 1, (k, val) :: rest, ver, lastPart, buf =>
    match decode_key k with
    | Except.error e => Except.error e
    | Except.ok (v2, p2) =>
      if v2 ≠ ver then Except.ok (buf, (k, val) :: rest)
      else if lastPart + 1 ≠ p2 then Except.error DecErr.corruptData
      else scanParts fuel rest ver p2 (buf ++ val)

/-- Embedding of getNextBatchImpl over the in-memory key/value records:
decode the first key, ASSERT its part number is 0 (an internal error
otherwise), collect all records of the same version while checking part
continuity, then decode the stitched value.  Calling it with no records
fails the not-finished ASSERT. -/
def getNextBatch (kvs : List (List Nat × List Nat)) :
    Except DecErr ((Nat × List MutationM) × List (List Nat × List Nat)) :=
  match kvs with
  | [] => Except.error DecErr.internalError
  | (k, val) :: rest =>
    match decode_key k with
    | Except.error e => Except.error e
    | Except.ok (ver, part) =>
      if part = 0 then
        match scanParts (rest.length + 1) rest ver 0 val with
        | Except.error e => Except.error e
        | Except.ok (buf, remaining) =>
          match decode_value buf with
          | Except.error e => Except.error e
          | Except.ok ms => Except.ok ((ver, ms), remaining)
      else Except.error DecErr.internalError

/-- Driver loop of the decoder: repeatedly take the next batch until no
records remain, collecting one version/mutations pair per batch. -/
def decodeAll : Nat → List (List Nat × List Nat) →
    Except DecErr (List (Nat × List MutationM))
  | 0, _ => Except.error DecErr.internalError
  | _ + 1, [] => Except.ok []
  | fuel + 1, kv :: rest =>
    match getNextBatch (kv :: rest) with
    | Except.error e => Except.error e
    | Except.ok (vm, rem) =>
      match decodeAll fuel rem with
      | Except.error e => Except.error e
      | Except.ok l => Except.ok (vm :: l)

/-- Version group of a mutation-log file: the payload of one logical
version, split into the value parts of its consecutive records. -/
structure LogGroup where
  version : Nat
  parts : List (List Nat)
deriving DecidableEq, Repr

/-- Records written for one group: part i carries key encodeKey version i,
numbering from 0 upward. -/
def encodeParts (v : Nat) : Nat → List (List Nat) → List (List Nat × List Nat)
  | _, [] => []
  | i, val :: rest => (encodeKey v i, val) :: encodeParts v (i + 1) rest

def encodeGroup (g : LogGroup) : List (List Nat × List Nat) :=
  encodeParts g.version 0 g.parts

def encodeGroups : List LogGroup → List (List Nat × List Nat)
  | [] => []
  | g :: gs => encodeGroup g ++ encodeGroups gs

/-- Well-formed group: the version fits in a nonnegative 64-bit integer,
there is at least one part, and the part count fits in an int32. -/
def wfGroup (g : LogGroup) : Prop :=
  g.version < 2 ^ 63 ∧ g.parts ≠ [] ∧ g.parts.length ≤ 2 ^ 31

instance (g : LogGroup) : Decidable (wfGroup g) := by
  unfold wfGroup; infer_instance

/-- The record list after a batch either is empty or starts with a record
whose key decodes to a different version, ending the scan. -/
def breaksAt (v : Nat) : List (List Nat × List Nat) → Prop
  | [] => True
  | (k, _) :: _ => ∃ v2 p2, decode_key k = Except.ok (v2, p2) ∧ v2 ≠ v

theorem encodeParts_length (v : Nat) :
    ∀ (ps : List (List Nat)) (i : Nat), (encodeParts v i ps).length = ps.length := by
  intro ps
  induction ps with
  | nil => intro i; rfl
  | cons p ps ih =>
      intro i
      show (encodeParts v i (p :: ps)).length = ps.length + 1
      rw [encodeParts, List.length_cons, ih (i + 1)]

theorem scanParts_encodeParts (v : Nat) (hv : v < 256 ^ 8) :
    ∀ (ps : List (List Nat)) (i : Nat) (buf : List Nat) (f : Nat)
      (rest : List (List Nat × List Nat)),
      ps.length + rest.length < f → i + ps.length < 256 ^ 4 → breaksAt v rest →
      scanParts f (encodeParts v (i + 1) ps ++ rest) v i buf =
        Except.ok (buf ++ ps.flatten, rest) := by
  intro ps
  induction ps with
  | nil =>
    intro i buf f rest hf hi hbr
    obtain ⟨f', rfl⟩ : ∃ f', f = f' + 1 := ⟨f - 1, by omega⟩
    cases rest with
    | nil =>
        show scanParts (f' + 1) [] v i buf =
          Except.ok (buf ++ ([] : List (List Nat)).flatten, [])
        simp [scanParts]
    | cons kv r =>
        obtain ⟨v2, p2, hdk, hne⟩ := hbr
        show scanParts (f' + 1) (kv :: r) v i buf =
          Except.ok (buf ++ ([] : List (List Nat)).flatten, kv :: r)
        rw [scanParts, hdk]
        simp [hne]
  | cons p ps ih =>
    intro i buf f rest hf hi hbr
    obtain ⟨f', rfl⟩ : ∃ f', f = f' + 1 := ⟨f - 1, by omega⟩
    have h4 : (256 : Nat) ^ 4 = 4294967296 := by norm_num
    simp only [List.length_cons] at hi hf
    have hkey : decode_key (encodeKey v (i + 1)) = Except.ok (v, i + 1) :=
      decode_key_encodeKey v (i + 1) hv (by rw [h4]; rw [h4] at hi; omega)
    show scanParts (f' + 1)
        ((encodeKey v (i + 1), p) :: (encodeParts v (i + 1 + 1) ps ++ rest)) v i buf =
      Except.ok (buf ++ (p :: ps).flatten, rest)
    rw [scanParts, hkey]
    dsimp only
    rw [if_neg (show ¬(v ≠ v) from fun h => h rfl),
      if_neg (show ¬(i + 1 ≠ i + 1) from fun h => h rfl)]
    rw [ih (i + 1) (buf ++ p) f' rest (by omega)
      (by rw [h4]; rw [h4] at hi; omega) hbr]
    rw [List.flatten_cons, ← List.append_assoc]

theorem getNextBatch_encodeGroup (g : LogGroup) (hwf : wfGroup g)
    (rest : List (List Nat × List Nat)) (hbr : breaksAt g.version rest)
    (ms : List MutationM) (hdec : decode_value g.parts.flatten = Except.ok ms) :
    getNextBatch (encodeGroup g ++ rest) = Except.ok ((g.version, ms), rest) := by
  obtain ⟨ver, parts⟩ := g
  obtain ⟨hv, hne, hlen⟩ := hwf
  dsimp only at hv hne hlen
  cases parts with
  | nil => exact absurd rfl hne
  | cons p0 ps =>
    have h63 : (2 : Nat) ^ 63 = 9223372036854775808 := by norm_num
    have h31 : (2 : Nat) ^ 31 = 2147483648 := by norm_num
    have h256_8 : (256 : Nat) ^ 8 = 18446744073709551616 := by norm_num
    have h256_4 : (256 : Nat) ^ 4 = 4294967296 := by norm_num
    rw [h63] at hv
    simp only [List.length_cons, h31] at hlen
    have hv8 : ver < 256 ^ 8 := by rw [h256_8]; omega
    have hkey0 : decode_key (encodeKey ver 0) = Except.ok (ver, 0) :=
      decode_key_encodeKey ver 0 hv8 (by rw [h256_4]; omega)
    dsimp only at hbr hdec ⊢
    have hscan := scanParts_encodeParts ver hv8 ps 0 p0
      ((encodeParts ver 1 ps ++ rest).length + 1) rest
      (by rw [List.length_append, encodeParts_length ver ps 1]; omega)
      (by rw [h256_4]; omega) hbr
    simp only [Nat.zero_add] at hscan
    rw [List.flatten_cons] at hdec
    show getNextBatch ((encodeKey ver 0, p0) :: (encodeParts ver 1 ps ++ rest)) =
      Except.ok ((ver, ms), rest)
    rw [getNextBatch, hkey0]
    dsimp only
    rw [if_pos rfl, hscan]
    dsimp only
    rw [hdec]

theorem decodeAll_encodeGroups (gs : List LogGroup) (hwf : ∀ g ∈ gs, wfGroup g)
    (hpw : gs.Pairwise fun a b => a.version ≠ b.version)
    (ms : LogGroup → List MutationM)
    (hdec : ∀ g ∈ gs, decode_value g.parts.flatten = Except.ok (ms g)) :
    ∀ f, (encodeGroups gs).length < f →
      decodeAll f (encodeGroups gs) = Except.ok (gs.map fun g => (g.version, ms g)) := by
  induction gs with
  | nil =>
      intro f hf
      obtain ⟨f', rfl⟩ : ∃ f', f = f' + 1 := ⟨f - 1, by omega⟩
      rfl
  | cons g gs' ih =>
      intro f hf
      obtain ⟨f', rfl⟩ : ∃ f', f = f' + 1 := ⟨f - 1, by omega⟩
      have h63 : (2 : Nat) ^ 63 = 9223372036854775808 := by norm_num
      have h256_8 : (256 : Nat) ^ 8 = 18446744073709551616 := by norm_num
      have hwfg := hwf g (List.mem_cons_self _ _)
      obtain ⟨k0, val0, tail0, hshape⟩ :
          ∃ k0 val0 tail0, encodeGroup g = (k0, val0) :: tail0 := by
        cases hparts : g.parts with
        | nil => exact absurd hparts hwfg.2.1
        | cons p0 ps =>
            exact ⟨encodeKey g.version 0, p0, encodeParts g.version 1 ps, by
              rw [encodeGroup, hparts]; rfl⟩
      have hbr : breaksAt g.version (encodeGroups gs') := by
        cases gs' with
        | nil => trivial
        | cons g2 gs'' =>
            have hwf2 := hwf g2 (List.mem_cons_of_mem _ (List.mem_cons_self _ _))
            cases hp2 : g2.parts with
            | nil => exact absurd hp2 hwf2.2.1
            | cons q0 qs =>
                have hshape2 : encodeGroups (g2 :: gs'') =
                    (encodeKey g2.version 0, q0) ::
                      (encodeParts g2.version 1 qs ++ encodeGroups gs'') := by
                  rw [encodeGroups, encodeGroup, hp2]; rfl
                rw [hshape2]
                show ∃ v2 p2, decode_key (encodeKey g2.version 0) =
                  Except.ok (v2, p2) ∧ v2 ≠ g.version
                refine ⟨g2.version, 0, ?_, ?_⟩
                · refine decode_key_encodeKey g2.version 0 ?_ (by norm_num)
                  have := hwf2.1
                  rw [h63] at this
                  rw [h256_8]
                  omega
                · have hrel := (List.pairwise_cons.mp hpw).1 g2 (List.mem_cons_self _ _)
                  exact fun h => hrel h.symm
      have hb := getNextBatch_encodeGroup g hwfg (encodeGroups gs') hbr (ms g)
        (hdec g (List.mem_cons_self _ _))
      rw [hshape, List.cons_append] at hb
      have hshapeAll : encodeGroups (g :: gs') = (k0, val0) :: (tail0 ++ encodeGroups gs') := by
        rw [encodeGroups, hshape]; rfl
      have hlenAll : (encodeGroups (g :: gs')).length =
          g.parts.length + (encodeGroups gs').length := by
        rw [encodeGroups, List.length_append, encodeGroup, encodeParts_length]
      have hplen : 0 < g.parts.length :=
        List.length_pos.mpr hwfg.2.1
      rw [hshapeAll] at hf ⊢
      rw [decodeAll, hb]
      dsimp only
      rw [ih (fun x hx => hwf x (List.mem_cons_of_mem _ hx))
        (List.Pairwise.of_cons hpw)
        (fun x hx => hdec x (List.mem_cons_of_mem _ hx)) f'
        (by rw [← hshapeAll] at hf; rw [hlenAll] at hf; omega)]
      dsimp only
      rw [List.map_cons]

theorem scanParts_gap (k val buf : List Nat) (f lastPart p2 : Nat) {ver : Nat}
    (rest : List (List Nat × List Nat))
    (hk : decode_key k = Except.ok (ver, p2)) (hgap : lastPart + 1 ≠ p2) :
    scanParts (f + 1) ((k, val) :: rest) ver lastPart buf =
      Except.error DecErr.corruptData := by
  rw [scanParts, hk]
  dsimp only
  rw [if_neg (show ¬(ver ≠ ver) from fun h => h rfl), if_pos hgap]

theorem getNextBatch_key0 (k val : List Nat) (ver : Nat)
    (rest : List (List Nat × List Nat))
    (hk : decode_key k = Except.ok (ver, 0)) :
    getNextBatch ((k, val) :: rest) =
      match scanParts (rest.length + 1) rest ver 0 val with
      | Except.error e => Except.error e
      | Except.ok (buf, remaining) =>
        match decode_value buf with
        | Except.error e => Except.error e
        | Except.ok ms => Except.ok ((ver, ms), remaining) := by
  rw [getNextBatch, hk]
  dsimp only
  rw [if_pos rfl]


/-- Claim C8 (corrected): for a well-formed backup log file — pairwise
distinct versions, each version's records carrying ascending part numbers
from 0 with no gaps — the decoder returns exactly one version/mutations
pair per version, whose mutation list is decoded from the concatenation of
that version's record values in part order.  A group with a gap in its
part numbers is decoded as restore_corrupted_data; however a group whose
part numbers start at a nonzero value fails the part-zero ASSERT, an
internal error, and is not decoded as corrupt_data as claimed. -/
theorem claimC8_part_stitching (gs : List LogGroup) (hwf : ∀ g ∈ gs, wfGroup g)
    (hpw : gs.Pairwise fun a b => a.version ≠ b.version)
    (ms : LogGroup → List MutationM)
    (hdec : ∀ g ∈ gs, decode_value g.parts.flatten = Except.ok (ms g))
    (v p : Nat) (hv : v < 2 ^ 63) (hp : p < 2 ^ 31) (a b : List Nat)
    (rest : List (List Nat × List Nat)) :
    decodeAll ((encodeGroups gs).length + 1) (encodeGroups gs) =
        Except.ok (gs.map fun g => (g.version, ms g)) ∧
    (p ≠ 1 → getNextBatch ((encodeKey v 0, a) :: (encodeKey v p, b) :: rest) =
        Except.error DecErr.corruptData) ∧
    (p ≠ 0 → getNextBatch ((encodeKey v p, a) :: rest) =
        Except.error DecErr.internalError) := by
  have h63 : (2 : Nat) ^ 63 = 9223372036854775808 := by norm_num
  have h31 : (2 : Nat) ^ 31 = 2147483648 := by norm_num
  have h256_8 : (256 : Nat) ^ 8 = 18446744073709551616 := by norm_num
  have h256_4 : (256 : Nat) ^ 4 = 4294967296 := by norm_num
  rw [h63] at hv
  rw [h31] at hp
  have hv8 : v < 256 ^ 8 := by rw [h256_8]; omega
  have hp4 : p < 256 ^ 4 := by rw [h256_4]; omega
  have hkey0 : decode_key (encodeKey v 0) = Except.ok (v, 0) :=
    decode_key_encodeKey v 0 hv8 (by norm_num)
  have hkeyp : decode_key (encodeKey v p) = Except.ok (v, p) :=
    decode_key_encodeKey v p hv8 hp4
  refine ⟨decodeAll_encodeGroups gs hwf hpw ms hdec _ (Nat.lt_succ_self _), ?_, ?_⟩
  · intro hp1
    rw [getNextBatch_key0 (encodeKey v 0) a v ((encodeKey v p, b) :: rest) hkey0]
    rw [scanParts_gap (encodeKey v p) b a ((encodeKey v p, b) :: rest).length 0 p
      rest hkeyp (by omega)]
  · intro hp0
    rw [getNextBatch, hkeyp]
    dsimp only
    rw [if_neg hp0]

/-- Part numbers starting at a nonzero value hit the part-zero ASSERT, an
internal error, not the corrupt_data error the claim states. -/
theorem claimC8_part_stitching_counterexample :
    getNextBatch [(encodeKey 100 1, [0])] = Except.error DecErr.internalError ∧
    DecErr.internalError ≠ DecErr.corruptData := ⟨rfl, by decide⟩

/-- Witness for C8: a two-part group whose stitched value decodes to one
mutation, a one-part group with no mutations, a gapped group and a
nonzero-start group. -/
theorem claimC8_part_stitching_witness :
    (∀ g ∈ [LogGroup.mk 100
        [(leBytes 8 1 ++ (leBytes 4 14 ++ (leBytes 4 0 ++ (leBytes 4 1 ++
            (leBytes 4 1 ++ ([65] ++ [66])))))).take 13,
         (leBytes 8 1 ++ (leBytes 4 14 ++ (leBytes 4 0 ++ (leBytes 4 1 ++
            (leBytes 4 1 ++ ([65] ++ [66])))))).drop 13],
       LogGroup.mk 5000000 [leBytes 8 0 ++ leBytes 4 0]], wfGroup g) ∧
    decodeAll ((encodeGroups [LogGroup.mk 100
        [(leBytes 8 1 ++ (leBytes 4 14 ++ (leBytes 4 0 ++ (leBytes 4 1 ++
            (leBytes 4 1 ++ ([65] ++ [66])))))).take 13,
         (leBytes 8 1 ++ (leBytes 4 14 ++ (leBytes 4 0 ++ (leBytes 4 1 ++
            (leBytes 4 1 ++ ([65] ++ [66])))))).drop 13],
       LogGroup.mk 5000000 [leBytes 8 0 ++ leBytes 4 0]]).length + 1)
      (encodeGroups [LogGroup.mk 100
        [(leBytes 8 1 ++ (leBytes 4 14 ++ (leBytes 4 0 ++ (leBytes 4 1 ++
            (leBytes 4 1 ++ ([65] ++ [66])))))).take 13,
         (leBytes 8 1 ++ (leBytes 4 14 ++ (leBytes 4 0 ++ (leBytes 4 1 ++
            (leBytes 4 1 ++ ([65] ++ [66])))))).drop 13],
       LogGroup.mk 5000000 [leBytes 8 0 ++ leBytes 4 0]]) =
      Except.ok ([LogGroup.mk 100
        [(leBytes 8 1 ++ (leBytes 4 14 ++ (leBytes 4 0 ++ (leBytes 4 1 ++
            (leBytes 4 1 ++ ([65] ++ [66])))))).take 13,
         (leBytes 8 1 ++ (leBytes 4 14 ++ (leBytes 4 0 ++ (leBytes 4 1 ++
            (leBytes 4 1 ++ ([65] ++ [66])))))).drop 13],
       LogGroup.mk 5000000 [leBytes 8 0 ++ leBytes 4 0]].map
        fun g => (g.version,
          if g.version = 100 then [MutationM.mk 0 [65] [66]] else [])) ∧
    getNextBatch [(encodeKey 7 0, [1]), (encodeKey 7 2, [2])] =
      Except.error DecErr.corruptData ∧
    getNextBatch [(encodeKey 7 2, [1])] = Except.error DecErr.internalError := by
  have h := claimC8_part_stitching
    [LogGroup.mk 100
        [(leBytes 8 1 ++ (leBytes 4 14 ++ (leBytes 4 0 ++ (leBytes 4 1 ++
            (leBytes 4 1 ++ ([65] ++ [66])))))).take 13,
         (leBytes 8 1 ++ (leBytes 4 14 ++ (leBytes 4 0 ++ (leBytes 4 1 ++
            (leBytes 4 1 ++ ([65] ++ [66])))))).drop 13],
       LogGroup.mk 5000000 [leBytes 8 0 ++ leBytes 4 0]]
    (by decide) (by decide)
    (fun g => if g.version = 100 then [MutationM.mk 0 [65] [66]] else [])
    (by decide) 7 2 (by norm_num) (by norm_num) [1] [2] []
  exact ⟨by decide, h.1, h.2.1 (by decide), h.2.2 (by decide)⟩

/-- Well-formed record of a block: the key length fits well below the
0xFF top length byte and the value length fits in a uint32. -/
def wfKV (kv : List Nat × List Nat) : Prop :=
  kv.1.length < 2 ^ 24 ∧ kv.2.length < 2 ^ 32

instance (kv : List Nat × List Nat) : Decidable (wfKV kv) := by
  unfold wfKV; infer_instance

/-- Magic version number of mutation log blocks. -/
def BACKUP_AGENT_MLOG_VERSION : Nat := 2001

/-- Record layout inside a block: key length and value length as
big-endian (network order) 32-bit words. -/
def encodeKV : List Nat × List Nat → List Nat
  | (k, val) => beBytes 4 k.length ++ (k ++ (beBytes 4 val.length ++ val))

def encodeKVs : List (List Nat × List Nat) → List Nat
  | [] => []
  | kv :: rest => encodeKV kv ++ encodeKVs rest

/-- Record loop of decode_block: stop at the end of the block or at a
leading 0xFF byte and then require every remaining byte to be 0xFF
(restore_corrupted_data_padding otherwise); else read a key length, key,
value length and value, where running past the end of the block is the
reader failure restore_corrupted_data.  Fuel-based; any fuel above the
byte count is enough. -/
def decodeBlockGo : Nat → List Nat → List (List Nat × List Nat) →
    Except DecErr (List (List Nat × List Nat))
  | 0, _, _ => Except.error DecErr.internalError
  | fuel + 1, bs, acc =>
    if bs.length = 0 ∨ bs.getD 0 0 = 255 then
      if bs.all (fun x => x == 255) then Except.ok acc.reverse
      else Except.error DecErr.corruptPadding
    else
      if 4 ≤ bs.length ∧ readBE (bs.take 4) ≤ ((bs.drop 4)).length then
        if 4 ≤ ((bs.drop 4).drop (readBE (bs.take 4))).length ∧
            readBE (((bs.drop 4).drop (readBE (bs.take 4))).take 4) ≤
              (((bs.drop 4).drop (readBE (bs.take 4))).drop 4).length then
          decodeBlockGo fuel
            ((((bs.drop 4).drop (readBE (bs.take 4))).drop 4).drop
              (readBE (((bs.drop 4).drop (readBE (bs.take 4))).take 4)))
            (((bs.drop 4).take (readBE (bs.take 4)),
              (((bs.drop 4).drop (readBE (bs.take 4))).drop 4).take
                (readBE (((bs.drop 4).drop (readBE (bs.take 4))).take 4))) :: acc)
        else Except.error DecErr.corruptData
      else Except.error DecErr.corruptData

/-- Embedding of decode_block: read the 4-byte magic (failing with
restore_unsupported_file_version when it is not 2001), then run the
record loop over the rest of the block. -/
def decodeBlock (buf : List Nat) : Except DecErr (List (List Nat × List Nat)) :=
  if 4 ≤ buf.length then
    if readLE (buf.take 4) = BACKUP_AGENT_MLOG_VERSION then
      decodeBlockGo (buf.length + 1) (buf.drop 4) []
    else Except.error DecErr.unsupportedVersion
  else Except.error DecErr.corruptData

theorem decodeBlockGo_record (k val : List Nat) (hwf : wfKV (k, val))
    (rest : List Nat) (fuel : Nat) (acc : List (List Nat × List Nat)) :
    decodeBlockGo (fuel + 1) (encodeKV (k, val) ++ rest) acc =
      decodeBlockGo fuel rest ((k, val) :: acc) := by
  obtain ⟨hk24, hv32⟩ := hwf
  dsimp only at hk24 hv32
  have h24 : (2 : Nat) ^ 24 = 16777216 := by norm_num
  have h32 : (2 : Nat) ^ 32 = 4294967296 := by norm_num
  have h256_4 : (256 : Nat) ^ 4 = 4294967296 := by norm_num
  rw [h24] at hk24
  rw [h32] at hv32
  have hassoc : encodeKV (k, val) ++ rest =
      beBytes 4 k.length ++ (k ++ (beBytes 4 val.length ++ (val ++ rest))) := by
    rw [encodeKV]
    simp [List.append_assoc]
  have hbe : beBytes 4 k.length =
      k.length / 256 / 256 / 256 % 256 :: (k.length / 256 / 256 % 256 ::
        (k.length / 256 % 256 :: [k.length % 256])) := rfl
  have htake4 : (beBytes 4 k.length ++
      (k ++ (beBytes 4 val.length ++ (val ++ rest)))).take 4 = beBytes 4 k.length := by
    have h := take_len_append (beBytes 4 k.length)
      (k ++ (beBytes 4 val.length ++ (val ++ rest)))
    rwa [beBytes_length] at h
  have hdrop4 : (beBytes 4 k.length ++
      (k ++ (beBytes 4 val.length ++ (val ++ rest)))).drop 4 =
      k ++ (beBytes 4 val.length ++ (val ++ rest)) := by
    have h := drop_len_append (beBytes 4 k.length)
      (k ++ (beBytes 4 val.length ++ (val ++ rest)))
    rwa [beBytes_length] at h
  have hkread : readBE (beBytes 4 k.length) = k.length :=
    readBE_beBytes_eq 4 k.length (by rw [h256_4]; omega)
  have htakeK : (k ++ (beBytes 4 val.length ++ (val ++ rest))).take k.length = k :=
    take_len_append k (beBytes 4 val.length ++ (val ++ rest))
  have hdropK : (k ++ (beBytes 4 val.length ++ (val ++ rest))).drop k.length =
      beBytes 4 val.length ++ (val ++ rest) :=
    drop_len_append k (beBytes 4 val.length ++ (val ++ rest))
  have htake4b : (beBytes 4 val.length ++ (val ++ rest)).take 4 = beBytes 4 val.length := by
    have h := take_len_append (beBytes 4 val.length) (val ++ rest)
    rwa [beBytes_length] at h
  have hdrop4b : (beBytes 4 val.length ++ (val ++ rest)).drop 4 = val ++ rest := by
    have h := drop_len_append (beBytes 4 val.length) (val ++ rest)
    rwa [beBytes_length] at h
  have hvread : readBE (beBytes 4 val.length) = val.length :=
    readBE_beBytes_eq 4 val.length (by rw [h256_4]; omega)
  have htakeV : (val ++ rest).take val.length = val := take_len_append val rest
  have hdropV : (val ++ rest).drop val.length = rest := drop_len_append val rest
  have hgetD : (beBytes 4 k.length ++
      (k ++ (beBytes 4 val.length ++ (val ++ rest)))).getD 0 0 =
      k.length / 256 / 256 / 256 % 256 := by
    rw [hbe, List.cons_append, List.getD_cons_zero]
  have hne : ¬((beBytes 4 k.length ++
      (k ++ (beBytes 4 val.length ++ (val ++ rest)))).length = 0 ∨
      (beBytes 4 k.length ++
        (k ++ (beBytes 4 val.length ++ (val ++ rest)))).getD 0 0 = 255) := by
    intro h
    rcases h with h | h
    · rw [List.length_append, beBytes_length] at h
      omega
    · rw [hgetD] at h
      omega
  rw [hassoc, decodeBlockGo, if_neg hne, htake4, hkread, hdrop4, htakeK, hdropK,
    htake4b, hvread, hdrop4b, htakeV, hdropV]
  rw [if_pos ⟨by simp only [List.length_append, beBytes_length]; omega, by
      simp only [List.length_append, beBytes_length]; omega⟩]
  rw [if_pos ⟨by simp only [List.length_append, beBytes_length]; omega, by
      simp only [List.length_append]; omega⟩]

theorem decodeBlockGo_chain (kvs : List (List Nat × List Nat))
    (h : ∀ kv ∈ kvs, wfKV kv) :
    ∀ (f : Nat) (tail acc : _),
      decodeBlockGo (kvs.length + f) (encodeKVs kvs ++ tail) acc =
        decodeBlockGo f tail (kvs.reverse ++ acc) := by
  induction kvs with
  | nil =>
      intro f tail acc
      show decodeBlockGo (0 + f) (encodeKVs [] ++ tail) acc = _
      rw [encodeKVs, List.nil_append, List.reverse_nil, List.nil_append, Nat.zero_add]
  | cons kv kvs' ih =>
      intro f tail acc
      obtain ⟨k, val⟩ := kv
      have hfuel : (((k, val) :: kvs').length + f) = kvs'.length + f + 1 := by
        rw [List.length_cons]; omega
      have hlist : encodeKVs ((k, val) :: kvs') ++ tail =
          encodeKV (k, val) ++ (encodeKVs kvs' ++ tail) := by
        rw [encodeKVs, List.append_assoc]
      rw [hfuel, hlist,
        decodeBlockGo_record k val (h (k, val) (List.mem_cons_self _ _)) _ _ _,
        ih (fun x hx => h x (List.mem_cons_of_mem _ hx)) f tail ((k, val) :: acc),
        List.reverse_cons, List.append_assoc, List.singleton_append]

theorem encodeKVs_length_ge (kvs : List (List Nat × List Nat)) :
    kvs.length ≤ (encodeKVs kvs).length := by
  induction kvs with
  | nil => exact Nat.le_refl 0
  | cons kv kvs' ih =>
      obtain ⟨k, val⟩ := kv
      rw [encodeKVs, List.length_append, List.length_cons]
      have : 1 ≤ (encodeKV (k, val)).length := by
        rw [encodeKV]
        simp only [List.length_append, beBytes_length]
        omega
      omega

/-- Claim C9 (corrected): a block whose 4-byte magic is not 2001 fails
with restore_unsupported_file_version; a block ending exactly at its last
value, or padded entirely with 0xFF bytes, decodes without error; and a
padding region that begins with 0xFF but contains a later non-0xFF byte
fails with restore_corrupted_data_padding.  However a non-0xFF byte
placed directly after the last record is not reported as corrupt_padding
as the claim states: the record loop treats it as the start of another
record (typically failing as restore_corrupted_data). -/
theorem claimC9_block_magic_padding (buf : List Nat)
    (kvs : List (List Nat × List Nat)) (hwf : ∀ kv ∈ kvs, wfKV kv)
    (pad q : List Nat) :
    (4 ≤ buf.length → readLE (buf.take 4) ≠ 2001 →
      decodeBlock buf = Except.error DecErr.unsupportedVersion) ∧
    ((∀ b ∈ pad, b = 255) →
      decodeBlock (leBytes 4 2001 ++ (encodeKVs kvs ++ pad)) = Except.ok kvs) ∧
    ((∃ b ∈ q, b ≠ 255) →
      decodeBlock (leBytes 4 2001 ++ (encodeKVs kvs ++ (255 :: q))) =
        Except.error DecErr.corruptPadding) := by
  have hmag : ∀ R : List Nat, decodeBlock (leBytes 4 2001 ++ R) =
      decodeBlockGo ((leBytes 4 2001 ++ R).length + 1) R [] := by
    intro R
    rw [decodeBlock, take_leBytes_append, drop_leBytes_append,
      readLE_leBytes_eq 4 2001 (by norm_num)]
    rw [if_pos (by simp only [List.length_append, leBytes_length]; omega),
      if_pos (show 2001 = BACKUP_AGENT_MLOG_VERSION from rfl)]
  refine ⟨?_, ?_, ?_⟩
  · intro h4 hm
    rw [decodeBlock, if_pos h4,
      if_neg (by rw [BACKUP_AGENT_MLOG_VERSION]; exact hm)]
  · intro hpad
    rw [hmag (encodeKVs kvs ++ pad)]
    have hge := encodeKVs_length_ge kvs
    have hNlen : (leBytes 4 2001 ++ (encodeKVs kvs ++ pad)).length + 1 =
        kvs.length +
          ((leBytes 4 2001 ++ (encodeKVs kvs ++ pad)).length + 1 - kvs.length) := by
      simp only [List.length_append, leBytes_length]
      omega
    rw [hNlen, decodeBlockGo_chain kvs hwf _ pad [], List.append_nil]
    obtain ⟨f', hf'⟩ : ∃ f',
        (leBytes 4 2001 ++ (encodeKVs kvs ++ pad)).length + 1 - kvs.length = f' + 1 :=
      ⟨(leBytes 4 2001 ++ (encodeKVs kvs ++ pad)).length - kvs.length, by
        simp only [List.length_append, leBytes_length]
        omega⟩
    rw [hf', decodeBlockGo]
    have hc1 : pad.length = 0 ∨ pad.getD 0 0 = 255 := by
      cases pad with
      | nil => exact Or.inl rfl
      | cons p ps =>
          refine Or.inr ?_
          rw [List.getD_cons_zero]
          exact hpad p (List.mem_cons_self _ _)
    have hall : pad.all (fun x => x == 255) = true := by
      rw [List.all_eq_true]
      intro x hx
      exact beq_iff_eq.mpr (hpad x hx)
    rw [if_pos hc1, if_pos hall, List.reverse_reverse]
  · intro hq
    obtain ⟨b, hb, hbne⟩ := hq
    rw [hmag (encodeKVs kvs ++ (255 :: q))]
    have hge := encodeKVs_length_ge kvs
    have hNlen : (leBytes 4 2001 ++ (encodeKVs kvs ++ (255 :: q))).length + 1 =
        kvs.length +
          ((leBytes 4 2001 ++ (encodeKVs kvs ++ (255 :: q))).length + 1 -
            kvs.length) := by
      simp only [List.length_append, leBytes_length]
      omega
    rw [hNlen, decodeBlockGo_chain kvs hwf _ (255 :: q) [], List.append_nil]
    obtain ⟨f', hf'⟩ : ∃ f',
        (leBytes 4 2001 ++ (encodeKVs kvs ++ (255 :: q))).length + 1 - kvs.length =
          f' + 1 :=
      ⟨(leBytes 4 2001 ++ (encodeKVs kvs ++ (255 :: q))).length - kvs.length, by
        simp only [List.length_append, leBytes_length]
        omega⟩
    rw [hf', decodeBlockGo]
    have hc1 : ((255 : Nat) :: q).length = 0 ∨ ((255 : Nat) :: q).getD 0 0 = 255 :=
      Or.inr List.getD_cons_zero
    have hallf : ¬(((255 : Nat) :: q).all (fun x => x == 255) = true) := by
      rw [List.all_eq_true]
      intro hall
      exact hbne (beq_iff_eq.mp (hall b (List.mem_cons_of_mem _ hb)))
    rw [if_pos hc1, if_neg hallf]

/-- Padding that starts with a non-0xFF byte directly after the last
record is consumed as another record and fails as corrupt_data, not as
the corrupt_padding error the claim states. -/
theorem claimC9_block_magic_padding_counterexample :
    decodeBlock (leBytes 4 2001 ++ (encodeKVs [([1], [2])] ++ [0])) =
      Except.error DecErr.corruptData ∧
    DecErr.corruptData ≠ DecErr.corruptPadding := ⟨rfl, by decide⟩

/-- Witness for C9: a wrong magic block, a block ending exactly at its
last value, an all-0xFF padded block, and an 0xFF-led padding containing
a zero byte. -/
theorem claimC9_block_magic_padding_witness :
    (∀ kv ∈ [([1, 2], [3])], wfKV kv) ∧
    decodeBlock [9, 9, 9, 9] = Except.error DecErr.unsupportedVersion ∧
    decodeBlock (leBytes 4 2001 ++ (encodeKVs [([1, 2], [3])] ++ [])) =
      Except.ok [([1, 2], [3])] ∧
    decodeBlock (leBytes 4 2001 ++ (encodeKVs [([1, 2], [3])] ++ [255, 255])) =
      Except.ok [([1, 2], [3])] ∧
    decodeBlock (leBytes 4 2001 ++ (encodeKVs [([1, 2], [3])] ++ (255 :: [0]))) =
      Except.error DecErr.corruptPadding := by
  have h1 := claimC9_block_magic_padding [9, 9, 9, 9] [([1, 2], [3])] (by decide) [] [0]
  have h2 := claimC9_block_magic_padding [9, 9, 9, 9] [([1, 2], [3])] (by decide)
    [255, 255] [0]
  exact ⟨by decide, h1.1 (by decide) (by decide), h1.2.1 (by decide),
    h2.2.1 (by decide), h1.2.2 ⟨0, List.mem_singleton_self 0, by decide⟩⟩
